import Mathlib

/-!
Shallow embedding of the supercell construction and indexing engine of
tbplas (file tbplas/builder/super.py: classes OrbitalSet and SuperCell),
together with proofs about it.

Modelling conventions:
* Machine complex numbers are modelled exactly as pairs of rationals
  (structural claims only; no floating-point rounding is at stake).
* The Cython core module (tbplas/builder/core.pyx) and the base module
  (tbplas/builder/base.py: Lockable, IntraHopping, check_rn, check_pbc)
  are not among the sources; every definition standing in for one of their
  functions is marked with a doc comment starting with: Modelled from the
  spec.  Everything else is translated directly from super.py.
* Python in-place mutation is modelled by explicit state passing: a mutator
  returns the error raised (if any) together with the final state, because
  super.py can mutate state before raising (set_vacancies does).
-/

namespace TBPlaS

/-- Complex number with exact rational parts (models Python complex). -/
structure Cplx where
  re : ℚ
  im : ℚ
deriving DecidableEq, Repr

/-- Complex conjugate. -/
def Cplx.conj (z : Cplx) : Cplx := ⟨z.re, -z.im⟩

/-- Index of an orbital or vacancy in primitive-cell representation:
cell indices (a, b, c) and intra-cell orbital index o. -/
structure PcId where
  a : ℕ
  b : ℕ
  c : ℕ
  o : ℕ
deriving DecidableEq, Repr

/-- Supercell dimension along the three lattice directions
(the (3,) int32 array self.dim of OrbitalSet). -/
structure Dim3 where
  a : ℕ
  b : ℕ
  c : ℕ
deriving DecidableEq, Repr

/-- Periodic-boundary flags along the three directions (self.pbc). -/
structure Pbc3 where
  a : Bool
  b : Bool
  c : Bool
deriving DecidableEq, Repr

/-- A primitive-cell hopping entry: one row of pc.hop_ind together with the
matching entry of pc.hop_eng, i.e. cell offset (ra, rb, rc), bra orbital oi,
ket orbital oj and hopping energy v. -/
structure HopPC where
  ra : ℤ
  rb : ℤ
  rc : ℤ
  oi : ℕ
  oj : ℕ
  v : Cplx
deriving DecidableEq, Repr

/-- The Hermitian conjugate counterpart of a primitive-cell hopping entry:
(R, i, j, v) maps to (-R, j, i, v*). -/
def HopPC.conjugate (h : HopPC) : HopPC :=
  ⟨-h.ra, -h.rb, -h.rc, h.oj, h.oi, h.v.conj⟩

/-- One stored supercell hopping term: entry k of the parallel output arrays
(hop_i[k], hop_j[k], hop_v[k]) of SuperCell.get_hop. -/
structure Hop where
  i : ℕ
  j : ℕ
  v : Cplx
deriving DecidableEq, Repr

/-- Total number of orbital slots of the supercell before vacancy
compaction: num_orb_pc * dim.a * dim.b * dim.c. -/
def numOrbFull (dim : Dim3) (nOrb : ℕ) : ℕ :=
  dim.a * dim.b * dim.c * nOrb

/-- Validity of a primitive-cell index (the condition checked by
OrbitalSet._check_id_pc): cell indices within 0 <= rn < dim and orbital
index within 0 <= o < num_orb_pc. -/
def validPc (dim : Dim3) (nOrb : ℕ) (p : PcId) : Prop :=
  p.a < dim.a ∧ p.b < dim.b ∧ p.c < dim.c ∧ p.o < nOrb

instance (dim : Dim3) (nOrb : ℕ) (p : PcId) : Decidable (validPc dim nOrb p) := by
  unfold validPc; infer_instance

/-- Modelled from the spec: the core flat encoding id_pc -> id_sc without
vacancy compaction (core._id_pc2sc; the Cython core module is not in the
sources).  Row-major over (a, b, c, orbital) with orbital fastest. -/
def idPcFlat (dim : Dim3) (nOrb : ℕ) (p : PcId) : ℕ :=
  ((p.a * dim.b + p.b) * dim.c + p.c) * nOrb + p.o

/-- Modelled from the spec: the inverse flat decoding id_sc -> id_pc
(IndexCodec decode of spec 4.1; the Cython core module is not in the
sources). -/
def idScFlatInv (dim : Dim3) (nOrb : ℕ) (f : ℕ) : PcId :=
  ⟨f / nOrb / dim.c / dim.b, f / nOrb / dim.c % dim.b, f / nOrb % dim.c, f % nOrb⟩

/-! ## Vacancy compaction (modelled core functions) -/

/-- Whether a flat supercell slot is a vacancy, given the vac_id_sc array. -/
def isVacFlat (vacIdSc : List ℕ) (f : ℕ) : Bool :=
  decide (f ∈ vacIdSc)

/-- Number of vacancy slots strictly below flat id f. -/
def countVacBelow (vacIdSc : List ℕ) (f : ℕ) : ℕ :=
  (List.range f).countP (isVacFlat vacIdSc)

/-- Modelled from the spec: core.build_vac_id_sc, the flat ids of the
vacancies (the Cython core module is not in the sources).  The source also
sorts vac_id_sc inside sync_array for its binary search; the compaction
model here counts memberships, for which the order is irrelevant. -/
def buildVacIdSc (dim : Dim3) (nOrb : ℕ) (vacs : List PcId) : List ℕ :=
  vacs.map (idPcFlat dim nOrb)

/-- The flat ids of the surviving (non-vacancy) slots, in increasing order. -/
def liveFlat (vacIdSc : List ℕ) (T : ℕ) : List ℕ :=
  (List.range T).filter (fun f => !(isVacFlat vacIdSc f))

/-- Modelled from the spec: core.build_orb_id_pc — for every surviving
compacted supercell index, the originating primitive-cell index, ordered by
compacted index (the Cython core module is not in the sources). -/
def buildOrbIdPc (dim : Dim3) (nOrb : ℕ) (vacIdSc : List ℕ) : List PcId :=
  (liveFlat vacIdSc (numOrbFull dim nOrb)).map (idScFlatInv dim nOrb)

/-- Modelled from the spec: core.id_pc2sc — the vacancy-compacted supercell
index of a pc index, or none when it denotes a vacancy (the source returns
-1 in that case; the Cython core module is not in the sources). -/
def idPc2Sc (dim : Dim3) (nOrb : ℕ) (vacIdSc : List ℕ) (p : PcId) : Option ℕ :=
  let f := idPcFlat dim nOrb p
  if isVacFlat vacIdSc f then none else some (f - countVacBelow vacIdSc f)

/-! ## Errors and state -/

/-- The exception kinds of tbplas/builder/exceptions.py used by super.py
(that file is not among the sources; constructors carry the data the call
sites of super.py pass to them). -/
inductive SCError where
  | scDimSize (axis : ℕ) (dimMin : ℕ)
  | vacIdPcIndex (axis : ℕ) (v : PcId)
  | idPcIndex (axis : ℕ) (v : PcId)
  | idPcVac (v : PcId)
  | idScIndex (f : ℕ)
  | scLock
  | scOrbIndex (orb : ℕ)
  | scHopDiagonal (orb : ℕ)
deriving DecidableEq, Repr

/-- Model of the read-only primitive-cell collaborator consumed by
OrbitalSet/SuperCell: orbital count, lattice vectors (rows), lattice
origin, fractional orbital positions, on-site energies and the hopping
table (hop_ind rows paired with hop_eng entries). -/
structure PrimitiveCell where
  num_orb : ℕ
  lat_vec : (ℚ × ℚ × ℚ) × (ℚ × ℚ × ℚ) × (ℚ × ℚ × ℚ)
  origin : ℚ × ℚ × ℚ
  orb_pos : List (ℚ × ℚ × ℚ)
  orb_eng : List ℚ
  hop_ind : List HopPC

/-- One entry of the SuperCell hop_modifier (an IntraHopping term):
cell offset, bra and ket supercell orbital indices, energy. -/
structure ModEntry where
  ra : ℤ
  rb : ℤ
  rc : ℤ
  bra : ℕ
  ket : ℕ
  energy : Cplx
deriving DecidableEq, Repr

/-- Combined state of an OrbitalSet together with the extra fields of its
subclass SuperCell (hop_modifier, orb_pos_modifier) and of Lockable
(is_locked; the base module is not in the sources).  hash_dict of the
source stores a content hash of vacancy_list under key vac; here the last
synchronized value of vacancy_list is stored directly, which the spec's
design notes describe as functionally equivalent change detection. -/
structure SuperCell where
  prim_cell : PrimitiveCell
  dim : Dim3
  pbc : Pbc3
  vacancy_list : List PcId
  hash_dict : List PcId
  vac_id_sc : List ℕ
  orb_id_pc : List PcId
  is_locked : Bool
  hop_modifier : List ModEntry
  orb_pos_modifier : Option (List (ℚ × ℚ × ℚ) → List (ℚ × ℚ × ℚ))

/-- Property num_orb_pc of OrbitalSet. -/
def SuperCell.num_orb_pc (s : SuperCell) : ℕ := s.prim_cell.num_orb

/-- Property num_orb_sc of OrbitalSet:
num_orb_pc * prod(dim) - len(vacancy_list). -/
def SuperCell.num_orb_sc (s : SuperCell) : ℕ :=
  s.num_orb_pc * (s.dim.a * s.dim.b * s.dim.c) - s.vacancy_list.length

/-- Method sync_array of OrbitalSet: rebuild vac_id_sc and orb_id_pc iff
vacancy_list changed since the last synchronization. -/
def syncArray (s : SuperCell) : SuperCell :=
  if s.vacancy_list = s.hash_dict then s
  else
    let vac := buildVacIdSc s.dim s.num_orb_pc s.vacancy_list
    { s with hash_dict := s.vacancy_list,
             vac_id_sc := vac,
             orb_id_pc := buildOrbIdPc s.dim s.num_orb_pc vac }

/-- Method _check_id_pc of OrbitalSet, reduced to the first out-of-range
axis (0, 1, 2 for the cell indices, 3 for the orbital index); none when the
index is legal.  The callers wrap the axis into their own error kinds. -/
def checkIdPcAxis (dim : Dim3) (nOrb : ℕ) (p : PcId) : Option ℕ :=
  if dim.a ≤ p.a then some 0
  else if dim.b ≤ p.b then some 1
  else if dim.c ≤ p.c then some 2
  else if nOrb ≤ p.o then some 3
  else none

/-- The scanning loop of add_vacancies: validate each vacancy in order,
appending legal non-duplicate ones to the list; stop at the first
offending one (the source raises there, with the already scanned part of
the batch committed). -/
def addVacanciesAux (dim : Dim3) (nOrb : ℕ) :
    List PcId → List PcId → Option SCError × List PcId
  | vl, [] => (none, vl)
  | vl, v :: rest =>
    match checkIdPcAxis dim nOrb v with
    | some i => (some (.vacIdPcIndex i v), vl)
    | none =>
      addVacanciesAux dim nOrb (if v ∈ vl then vl else vl ++ [v]) rest

/-- Method add_vacancies of OrbitalSet (with the default sync_array=True):
lock check, then the scanning loop, then synchronization on success. -/
def addVacancies (s : SuperCell) (batch : List PcId) : Option SCError × SuperCell :=
  if s.is_locked then (some .scLock, s)
  else
    match addVacanciesAux s.dim s.num_orb_pc s.vacancy_list batch with
    | (some e, vl) => (some e, { s with vacancy_list := vl })
    | (none, vl) => (none, syncArray { s with vacancy_list := vl })

/-- Method add_vacancy of OrbitalSet (single-element wrapper; the source
default sync_array=False only delays the rebuild, and the next accessor
resynchronizes; modelled with the add_vacancies default). -/
def addVacancy (s : SuperCell) (v : PcId) : Option SCError × SuperCell :=
  addVacancies s [v]

/-- Method set_vacancies of OrbitalSet: the vacancy list is reset to []
BEFORE add_vacancies runs its lock check — faithful to the source order. -/
def setVacancies (s : SuperCell) (batch : List PcId) : Option SCError × SuperCell :=
  addVacancies { s with vacancy_list := [] } batch

/-! ## Index conversion accessors -/

/-- Method orb_id_sc2pc of OrbitalSet: synchronize, then look the orbital
up in orb_id_pc (out of range raises IDSCIndexError). -/
def orbIdSc2Pc (s : SuperCell) (id_sc : ℕ) : Except SCError PcId :=
  match (syncArray s).orb_id_pc.get? id_sc with
  | some p => .ok p
  | none => .error (.idScIndex id_sc)

/-- Method orb_id_pc2sc of OrbitalSet: synchronize, validate, convert;
a vacancy raises IDPCVacError. -/
def orbIdPc2Sc (s : SuperCell) (p : PcId) : Except SCError ℕ :=
  match checkIdPcAxis (syncArray s).dim (syncArray s).num_orb_pc p with
  | some i => .error (.idPcIndex i p)
  | none =>
    match idPc2Sc (syncArray s).dim (syncArray s).num_orb_pc (syncArray s).vac_id_sc p with
    | none => .error (.idPcVac p)
    | some k => .ok k

/-- Position of the first element satisfying a predicate. -/
def firstIdx {α : Type} (p : α → Bool) : List α → Option ℕ
  | [] => none
  | x :: xs => if p x then some 0 else (firstIdx p xs).map (· + 1)

/-- Modelled from the spec: core.check_id_sc_array — scan the batch in one
pass and report the first out-of-range position (the Cython core module is
not in the sources). -/
def checkIdScArray (numOrbSc : ℕ) (ids : List ℕ) : Option ℕ :=
  firstIdx (fun f => decide (numOrbSc ≤ f)) ids

/-- Method orb_id_sc2pc_array of OrbitalSet: validate the whole batch
(first offender aborts it), then convert every element. -/
def orbIdSc2PcArray (s : SuperCell) (ids : List ℕ) : Except SCError (List PcId) :=
  match checkIdScArray (syncArray s).num_orb_sc ids with
  | some k => .error (.idScIndex (ids.getD k 0))
  | none => .ok (ids.map (fun f => (syncArray s).orb_id_pc.getD f ⟨0, 0, 0, 0⟩))

/-- Modelled from the spec: core.check_id_pc_array — scan the batch in one
pass and report the first offending element, distinguishing an
out-of-range component (axis) from a vacancy (the Cython core module is
not in the sources). -/
def checkIdPcArray (dim : Dim3) (nOrb : ℕ) (vacIdSc : List ℕ) :
    List PcId → Option SCError
  | [] => none
  | p :: rest =>
    match checkIdPcAxis dim nOrb p with
    | some i => some (.idPcIndex i p)
    | none =>
      if isVacFlat vacIdSc (idPcFlat dim nOrb p) then some (.idPcVac p)
      else checkIdPcArray dim nOrb vacIdSc rest

/-- Method orb_id_pc2sc_array of OrbitalSet: validate the whole batch
(first offender aborts it), then convert every element. -/
def orbIdPc2ScArray (s : SuperCell) (ps : List PcId) : Except SCError (List ℕ) :=
  match checkIdPcArray (syncArray s).dim (syncArray s).num_orb_pc
      (syncArray s).vac_id_sc ps with
  | some e => .error e
  | none =>
    .ok (ps.map (fun p =>
      (idPc2Sc (syncArray s).dim (syncArray s).num_orb_pc (syncArray s).vac_id_sc p).getD 0))

/-! ## Hopping modifier (IntraHopping) -/

/-- Modelled from the spec: IntraHopping.add_hopping of the base module
(not in the sources) — an upsert keyed by (cell offset, bra, ket) with
conjugate-aware lookup: an existing direct key is overwritten with the
energy, an existing conjugate key with its complex conjugate, and a new
key is appended. -/
def intraHoppingAdd : List ModEntry → ℤ × ℤ × ℤ → ℕ → ℕ → Cplx → List ModEntry
  | [], rn, i, j, e => [⟨rn.1, rn.2.1, rn.2.2, i, j, e⟩]
  | m :: rest, rn, i, j, e =>
    if m.ra = rn.1 ∧ m.rb = rn.2.1 ∧ m.rc = rn.2.2 ∧ m.bra = i ∧ m.ket = j then
      ⟨m.ra, m.rb, m.rc, m.bra, m.ket, e⟩ :: rest
    else if m.ra = -rn.1 ∧ m.rb = -rn.2.1 ∧ m.rc = -rn.2.2 ∧ m.bra = j ∧ m.ket = i then
      ⟨m.ra, m.rb, m.rc, m.bra, m.ket, e.conj⟩ :: rest
    else
      m :: intraHoppingAdd rest rn i j e

/-- Method add_hopping of SuperCell: lock check, bounds checks on both
orbitals against num_orb_sc, diagonal check, then insertion into the
modifier.  The cell-index length check of the source is absorbed by the
type of rn. -/
def addHopping (s : SuperCell) (rn : ℤ × ℤ × ℤ) (orb_i orb_j : ℕ)
    (energy : Cplx) : Option SCError × SuperCell :=
  if s.is_locked then (some .scLock, s)
  else if s.num_orb_sc ≤ orb_i then (some (.scOrbIndex orb_i), s)
  else if s.num_orb_sc ≤ orb_j then (some (.scOrbIndex orb_j), s)
  else if rn = (0, 0, 0) ∧ orb_i = orb_j then (some (.scHopDiagonal orb_i), s)
  else (none, { s with hop_modifier := intraHoppingAdd s.hop_modifier rn orb_i orb_j energy })

/-- Method set_orb_pos_modifier of SuperCell. -/
def setOrbPosModifier (s : SuperCell)
    (f : Option (List (ℚ × ℚ × ℚ) → List (ℚ × ℚ × ℚ))) : Option SCError × SuperCell :=
  if s.is_locked then (some .scLock, s)
  else (none, { s with orb_pos_modifier := f })

/-! ## Hopping term generation -/

/-- Modelled from the spec: the per-axis destination-cell computation of
the general algorithm — wrap on a periodic axis, discard an out-of-range
destination on a free axis. -/
def wrapAxis (d : ℕ) (p : Bool) (n : ℤ) : Option ℕ :=
  if 0 ≤ n ∧ n < (d : ℤ) then some n.toNat
  else if p then some ((n % (d : ℤ)).toNat) else none

/-- All supercell cell indices, in row-major order. -/
def cellsOf (dim : Dim3) : List (ℕ × ℕ × ℕ) :=
  (List.range dim.a) ×ˢ ((List.range dim.b) ×ˢ (List.range dim.c))

/-- Modelled from the spec: the emission of one candidate of the general
algorithm of core.build_hop (the Cython core module is not in the
sources) — for a pc hopping entry h replicated at cell r: compute the
destination cell with per-axis wraparound, drop the candidate if an axis
discards it or if either endpoint is a vacancy, and otherwise emit the
compacted bra/ket indices with the pc energy. -/
def emitHop (dim : Dim3) (pbc : Pbc3) (nOrb : ℕ) (vacIdSc : List ℕ)
    (h : HopPC) (r : ℕ × ℕ × ℕ) : Option Hop :=
  match wrapAxis dim.a pbc.a ((r.1 : ℤ) + h.ra),
        wrapAxis dim.b pbc.b ((r.2.1 : ℤ) + h.rb),
        wrapAxis dim.c pbc.c ((r.2.2 : ℤ) + h.rc) with
  | some a2, some b2, some c2 =>
    let fb := idPcFlat dim nOrb ⟨r.1, r.2.1, r.2.2, h.oi⟩
    let fk := idPcFlat dim nOrb ⟨a2, b2, c2, h.oj⟩
    if isVacFlat vacIdSc fb || isVacFlat vacIdSc fk then none
    else some ⟨fb - countVacBelow vacIdSc fb, fk - countVacBelow vacIdSc fk, h.v⟩
  | _, _, _ => none

/-- Modelled from the spec: core.build_hop, the general algorithm — every
pc hopping entry against every supercell cell. -/
def buildHop (hopInd : List HopPC) (dim : Dim3) (pbc : Pbc3) (nOrb : ℕ)
    (vacIdSc : List ℕ) : List Hop :=
  hopInd.flatMap (fun h => (cellsOf dim).filterMap (emitHop dim pbc nOrb vacIdSc h))

/-- Whether a pc hopping entry moves only along periodic axes, so that its
supercell output is closed-form predictable (the first partition of
core.split_pc_hop). -/
def hopSafePbc (pbc : Pbc3) (h : HopPC) : Bool :=
  (h.ra == 0 || pbc.a) && (h.rb == 0 || pbc.b) && (h.rc == 0 || pbc.c)

/-- Modelled from the spec: core.split_pc_hop — partition the pc hopping
table into the periodic-safe part and the rest (the Cython core module is
not in the sources). -/
def splitPcHop (hopInd : List HopPC) (pbc : Pbc3) : List HopPC × List HopPC :=
  (hopInd.filter (hopSafePbc pbc), hopInd.filter (fun h => !(hopSafePbc pbc h)))

/-- Modelled from the spec: the per-candidate emission of core.build_hop_pbc
(the Cython core module is not in the sources) — callers guarantee no
vacancies and a periodic-safe entry, so every cell emits exactly one term,
wrapping unconditionally. -/
def emitHopPbc (dim : Dim3) (nOrb : ℕ) (h : HopPC) (r : ℕ × ℕ × ℕ) : Hop :=
  ⟨idPcFlat dim nOrb ⟨r.1, r.2.1, r.2.2, h.oi⟩,
   idPcFlat dim nOrb ⟨((((r.1 : ℤ) + h.ra) % (dim.a : ℤ))).toNat,
                      ((((r.2.1 : ℤ) + h.rb) % (dim.b : ℤ))).toNat,
                      ((((r.2.2 : ℤ) + h.rc) % (dim.c : ℤ))).toNat, h.oj⟩,
   h.v⟩

/-- Modelled from the spec: core.build_hop_pbc, the pre-allocated fast
enumeration over the periodic-safe entries. -/
def buildHopPbc (hopInd : List HopPC) (dim : Dim3) (nOrb : ℕ) : List Hop :=
  hopInd.flatMap (fun h => (cellsOf dim).map (emitHopPbc dim nOrb h))

/-- Method _init_hop of SuperCell (hopping part): the general algorithm on
the whole pc hopping table. -/
def initHop (s : SuperCell) : List Hop :=
  buildHop s.prim_cell.hop_ind s.dim s.pbc s.num_orb_pc s.vac_id_sc

/-- Method _init_hop_fast of SuperCell (hopping part): the fast algorithm —
closed-form generation for the periodic-safe partition, the general
algorithm for the rest, results appended. -/
def initHopFast (s : SuperCell) : List Hop :=
  let z := splitPcHop s.prim_cell.hop_ind s.pbc
  buildHopPbc z.1 s.dim s.num_orb_pc ++
    buildHop z.2 s.dim s.pbc s.num_orb_pc s.vac_id_sc

/-! ## get_hop and the modifier merge -/

/-- The key comparison of the modifier merge: term t matches bra b and
ket k exactly. -/
def hopSameKey (b k : ℕ) (t : Hop) : Bool :=
  t.i == b && t.j == k

/-- Modelled from the spec: core.find_equiv_hopping (the Cython core module
is not in the sources) — the position of the first exact (bra, ket) match
and of the first conjugate (ket, bra) match in the raw arrays. -/
def findEquivHopping (l : List Hop) (b k : ℕ) : Option ℕ × Option ℕ :=
  (firstIdx (hopSameKey b k) l, firstIdx (hopSameKey k b) l)

/-- The sublist of stored terms with bra b and ket k, in order. -/
def hopFiber (b k : ℕ) (l : List Hop) : List Hop :=
  l.filter (hopSameKey b k)

/-- Two term lists agreeing on every (bra, ket) sublist.  The modifier
merge treats such lists identically up to permutation. -/
def hopFiberEq (l₁ l₂ : List Hop) : Prop :=
  ∀ b k, hopFiber b k l₁ = hopFiber b k l₂

/-- Overwrite the energy of the first term of a list. -/
def setHeadHopV (v : Cplx) : List Hop → List Hop
  | [] => []
  | t :: ts => ⟨t.i, t.j, v⟩ :: ts

/-- Two stored terms are NOT a Hermitian-conjugate duplicate pair:
not (bra/ket swapped with conjugate energies). -/
def conjDistinct (t u : Hop) : Prop :=
  ¬(t.i = u.j ∧ t.j = u.i ∧ t.v = u.v.conj)

/-- The conjugate-reduction invariant of the stored hopping arrays: no two
positions hold a term and its Hermitian conjugate. -/
def NoConjDup (l : List Hop) : Prop :=
  List.Pairwise conjDistinct l

instance (t u : Hop) : Decidable (conjDistinct t u) := by
  unfold conjDistinct; infer_instance

instance (l : List Hop) : Decidable (NoConjDup l) := by
  unfold NoConjDup; infer_instance

/-- In-place overwrite of hop_v[n] (hop_i and hop_j keep their values). -/
def setHopV : List Hop → ℕ → Cplx → List Hop
  | [], _, _ => []
  | t :: ts, 0, v => ⟨t.i, t.j, v⟩ :: ts
  | t :: ts, n + 1, v => t :: setHopV ts n v

/-- One iteration of the modifier loop of get_hop: overwrite the first
exact match, else overwrite the first conjugate match with the conjugated
energy, else collect the term for appending after the loop. -/
def mergeHopStep (acc : List Hop × List Hop) (m : ModEntry) : List Hop × List Hop :=
  match findEquivHopping acc.1 m.bra m.ket with
  | (some i, _) => (setHopV acc.1 i m.energy, acc.2)
  | (none, some i) => (setHopV acc.1 i m.energy.conj, acc.2)
  | (none, none) => (acc.1, acc.2 ++ [⟨m.bra, m.ket, m.energy⟩])

/-- The modifier merge of get_hop: the loop over all modifier entries, the
new terms appended after it. -/
def applyHopModifier (raw : List Hop) (mods : List ModEntry) : List Hop :=
  let z := mods.foldl mergeHopStep (raw, [])
  z.1 ++ z.2

/-- The use_fast argument of get_hop / get_dr: auto, or an explicit
boolean. -/
inductive UseFast where
  | auto
  | fast
  | general
deriving DecidableEq, Repr

/-- Resolution of use_fast == auto: fast iff there are no vacancies. -/
def resolveUseFast (s : SuperCell) : UseFast → Bool
  | .auto => s.vacancy_list.isEmpty
  | .fast => true
  | .general => false

/-- Method get_hop of SuperCell: synchronize, build the initial hopping
terms with the chosen algorithm, then merge the hopping modifier.  The
synchronized state is returned alongside (the source mutates self). -/
def getHop (s : SuperCell) (mode : UseFast) : List Hop × SuperCell :=
  let t := syncArray s
  let raw := if resolveUseFast t mode then initHopFast t else initHop t
  let out := if t.hop_modifier.isEmpty then raw else applyHopModifier raw t.hop_modifier
  (out, t)

/-! ## Orbital positions and get_dr -/

/-- Componentwise sum of two Cartesian vectors. -/
def v3Add (x y : ℚ × ℚ × ℚ) : ℚ × ℚ × ℚ :=
  (x.1 + y.1, x.2.1 + y.2.1, x.2.2 + y.2.2)

/-- Componentwise difference of two Cartesian vectors. -/
def v3Sub (x y : ℚ × ℚ × ℚ) : ℚ × ℚ × ℚ :=
  (x.1 - y.1, x.2.1 - y.2.1, x.2.2 - y.2.2)

/-- Componentwise negation of a Cartesian vector. -/
def v3Neg (x : ℚ × ℚ × ℚ) : ℚ × ℚ × ℚ :=
  (-x.1, -x.2.1, -x.2.2)

/-- Scalar multiple of a Cartesian vector. -/
def v3Smul (q : ℚ) (x : ℚ × ℚ × ℚ) : ℚ × ℚ × ℚ :=
  (q * x.1, q * x.2.1, q * x.2.2)

/-- A fractional coordinate triple contracted with the rows of a lattice
matrix (np.matmul(frac, lat_vec)). -/
def fracToCart (lat : (ℚ × ℚ × ℚ) × (ℚ × ℚ × ℚ) × (ℚ × ℚ × ℚ))
    (fa fb fc : ℚ) : ℚ × ℚ × ℚ :=
  v3Add (v3Smul fa lat.1) (v3Add (v3Smul fb lat.2.1) (v3Smul fc lat.2.2))

/-- Property sc_lat_vec of SuperCell: the pc lattice rows scaled by the
supercell dimension. -/
def SuperCell.sc_lat_vec (s : SuperCell) :
    (ℚ × ℚ × ℚ) × (ℚ × ℚ × ℚ) × (ℚ × ℚ × ℚ) :=
  (v3Smul (s.dim.a : ℚ) s.prim_cell.lat_vec.1,
   v3Smul (s.dim.b : ℚ) s.prim_cell.lat_vec.2.1,
   v3Smul (s.dim.c : ℚ) s.prim_cell.lat_vec.2.2)

/-- Modelled from the spec: core.build_orb_pos combined with the origin
shift of get_orb_pos — the Cartesian position of each surviving orbital,
from its cell index plus the fractional orbital position contracted with
the pc lattice (the Cython core module is not in the sources). -/
def buildOrbPos (pc : PrimitiveCell) (orbIdPc : List PcId) : List (ℚ × ℚ × ℚ) :=
  orbIdPc.map (fun p =>
    let frac := pc.orb_pos.getD p.o (0, 0, 0)
    v3Add pc.origin
      (fracToCart pc.lat_vec ((p.a : ℚ) + frac.1) ((p.b : ℚ) + frac.2.1)
        ((p.c : ℚ) + frac.2.2)))

/-- Method get_orb_pos of SuperCell: synchronize, build positions, apply
the orbital-position modifier when present.  The synchronized state is
returned alongside. -/
def getOrbPos (s : SuperCell) : List (ℚ × ℚ × ℚ) × SuperCell :=
  let t := syncArray s
  let pos := buildOrbPos t.prim_cell t.orb_id_pc
  (match t.orb_pos_modifier with
   | none => pos
   | some f => f pos, t)

/-- Modelled from the spec: the companion displacement of one emitted term
of core.build_hop with data_kind=1 — the real-space separation of ket and
bra including the periodic-image offset that the wrapped ket index no
longer encodes (the Cython core module is not in the sources). -/
def emitHopDr (dim : Dim3) (pbc : Pbc3) (nOrb : ℕ) (vacIdSc : List ℕ)
    (scLat : (ℚ × ℚ × ℚ) × (ℚ × ℚ × ℚ) × (ℚ × ℚ × ℚ))
    (orbPos : List (ℚ × ℚ × ℚ)) (h : HopPC) (r : ℕ × ℕ × ℕ) :
    Option (Hop × (ℚ × ℚ × ℚ)) :=
  match emitHop dim pbc nOrb vacIdSc h r with
  | none => none
  | some t =>
    let na := (r.1 : ℤ) + h.ra
    let nb := (r.2.1 : ℤ) + h.rb
    let nc := (r.2.2 : ℤ) + h.rc
    let ia : ℤ := (na - (na % (dim.a : ℤ))) / (dim.a : ℤ)
    let ib : ℤ := (nb - (nb % (dim.b : ℤ))) / (dim.b : ℤ)
    let ic : ℤ := (nc - (nc % (dim.c : ℤ))) / (dim.c : ℤ)
    some (t, v3Sub
      (v3Add (orbPos.getD t.j (0, 0, 0)) (fracToCart scLat (ia : ℚ) (ib : ℚ) (ic : ℚ)))
      (orbPos.getD t.i (0, 0, 0)))

/-- The general algorithm with displacements (data_kind=1). -/
def buildHopDr (hopInd : List HopPC) (dim : Dim3) (pbc : Pbc3) (nOrb : ℕ)
    (vacIdSc : List ℕ)
    (scLat : (ℚ × ℚ × ℚ) × (ℚ × ℚ × ℚ) × (ℚ × ℚ × ℚ))
    (orbPos : List (ℚ × ℚ × ℚ)) : List (Hop × (ℚ × ℚ × ℚ)) :=
  hopInd.flatMap (fun h =>
    (cellsOf dim).filterMap (emitHopDr dim pbc nOrb vacIdSc scLat orbPos h))

/-- In-place overwrite of dr[n]. -/
def setV3At : List (ℚ × ℚ × ℚ) → ℕ → (ℚ × ℚ × ℚ) → List (ℚ × ℚ × ℚ)
  | [], _, _ => []
  | _ :: ts, 0, v => v :: ts
  | t :: ts, n + 1, v => t :: setV3At ts n v

/-- One iteration of the modifier loop of get_dr: the displacement of the
modifier entry overwrites the first exact match, its negation overwrites
the first conjugate match, and otherwise it is collected for appending.
The searched raw hop arrays stay fixed during the loop, as in the source. -/
def mergeDrStep (hops : List Hop) (orbPos : List (ℚ × ℚ × ℚ))
    (scLat : (ℚ × ℚ × ℚ) × (ℚ × ℚ × ℚ) × (ℚ × ℚ × ℚ))
    (acc : List (ℚ × ℚ × ℚ) × List (ℚ × ℚ × ℚ)) (m : ModEntry) :
    List (ℚ × ℚ × ℚ) × List (ℚ × ℚ × ℚ) :=
  let rnCart := fracToCart scLat (m.ra : ℚ) (m.rb : ℚ) (m.rc : ℚ)
  let dri := v3Sub (v3Add (orbPos.getD m.ket (0, 0, 0)) rnCart)
    (orbPos.getD m.bra (0, 0, 0))
  match findEquivHopping hops m.bra m.ket with
  | (some i, _) => (setV3At acc.1 i dri, acc.2)
  | (none, some i) => (setV3At acc.1 i (v3Neg dri), acc.2)
  | (none, none) => (acc.1, acc.2 ++ [dri])

/-- Method get_dr of SuperCell: synchronize, build positions and the raw
terms with displacements, then merge the hopping modifier into dr. -/
def getDr (s : SuperCell) (mode : UseFast) : List (ℚ × ℚ × ℚ) × SuperCell :=
  let t := syncArray s
  let orbPos := (getOrbPos t).1
  let rawPairs :=
    if resolveUseFast t mode then
      let z := splitPcHop t.prim_cell.hop_ind t.pbc
      buildHopDr z.1 t.dim t.pbc t.num_orb_pc t.vac_id_sc t.sc_lat_vec orbPos ++
        buildHopDr z.2 t.dim t.pbc t.num_orb_pc t.vac_id_sc t.sc_lat_vec orbPos
    else
      buildHopDr t.prim_cell.hop_ind t.dim t.pbc t.num_orb_pc t.vac_id_sc
        t.sc_lat_vec orbPos
  let hops := rawPairs.map (fun z => z.1)
  let dr := rawPairs.map (fun z => z.2)
  let out :=
    if t.hop_modifier.isEmpty then dr
    else
      let z := t.hop_modifier.foldl (mergeDrStep hops orbPos t.sc_lat_vec) (dr, [])
      z.1 ++ z.2
  (out, t)

/-! ## trim -/

/-- Modelled from the spec: core.get_orb_id_trim (the Cython core module is
not in the sources) — the pc indices of the dangling orbitals, i.e. of the
compacted indices appearing in neither hop_i nor hop_j. -/
def getOrbIdTrim (orbIdPc : List PcId) (hopI hopJ : List ℕ) : List PcId :=
  (List.range orbIdPc.length).filterMap (fun i =>
    if hopI.contains i || hopJ.contains i then none
    else some (orbIdPc.getD i ⟨0, 0, 0, 0⟩))

/-- Method trim of SuperCell: lock check, find dangling orbitals through
get_hop, add them as vacancies, and purge modifier entries referencing
them (IntraHopping.remove_orbitals of the base module, not in the sources,
modelled from the spec as that purge). -/
def trim (s : SuperCell) : Option SCError × SuperCell :=
  if s.is_locked then (some .scLock, s)
  else
    let z := getHop s .auto
    let t := z.2
    let hopI := z.1.map (fun x => x.i)
    let hopJ := z.1.map (fun x => x.j)
    let idPcTrim := getOrbIdTrim t.orb_id_pc hopI hopJ
    match orbIdPc2ScArray t idPcTrim with
    | .error e => (some e, t)
    | .ok idScTrim =>
      match addVacancies t idPcTrim with
      | (some e, t2) => (some e, t2)
      | (none, t2) =>
        (none, { t2 with hop_modifier := t2.hop_modifier.filter (fun m =>
          !(idScTrim.contains m.bra || idScTrim.contains m.ket)) })

/-! ## Construction (OrbitalSet.__init__ / SuperCell.__init__) -/

/-- A component of a pc hopping offset selected by axis. -/
def hopRnAt (i : ℕ) (h : HopPC) : ℤ :=
  if i = 0 then h.ra else if i = 1 then h.rb else h.rc

/-- A component of the supercell dimension selected by axis. -/
def dimAt (i : ℕ) (dim : Dim3) : ℕ :=
  if i = 0 then dim.a else if i = 1 then dim.b else dim.c

/-- hop_ind[:, i].min() over a nonempty hopping table (numpy raises on an
empty one; the theorems below assume nonemptiness). -/
def hopRnMin (i : ℕ) : List HopPC → ℤ
  | [] => 0
  | [h] => hopRnAt i h
  | h :: h2 :: rest => min (hopRnAt i h) (hopRnMin i (h2 :: rest))

/-- hop_ind[:, i].max() over a nonempty hopping table. -/
def hopRnMax (i : ℕ) : List HopPC → ℤ
  | [] => 0
  | [h] => hopRnAt i h
  | h :: h2 :: rest => max (hopRnAt i h) (hopRnMax i (h2 :: rest))

/-- The minimal legal supercell dimension along an axis:
max(abs(rn_min), abs(rn_max)) as in OrbitalSet.__init__. -/
def scDimMin (i : ℕ) (hops : List HopPC) : ℕ :=
  max (hopRnMin i hops).natAbs (hopRnMax i hops).natAbs

/-- OrbitalSet.__init__ together with the extra fields set by
SuperCell.__init__: check each axis dimension against its minimum (axes in
order, first offender raises SCDimSizeError), initialize the arrays for an
empty vacancy list, then add the optional vacancies.  The dim/pbc length
checks of the source are absorbed by the types. -/
def makeSuperCell (pc : PrimitiveCell) (dim : Dim3) (pbc : Pbc3)
    (vacancies : Option (List PcId))
    (opm : Option (List (ℚ × ℚ × ℚ) → List (ℚ × ℚ × ℚ))) :
    Except SCError SuperCell :=
  if dimAt 0 dim < scDimMin 0 pc.hop_ind then
    .error (.scDimSize 0 (scDimMin 0 pc.hop_ind))
  else if dimAt 1 dim < scDimMin 1 pc.hop_ind then
    .error (.scDimSize 1 (scDimMin 1 pc.hop_ind))
  else if dimAt 2 dim < scDimMin 2 pc.hop_ind then
    .error (.scDimSize 2 (scDimMin 2 pc.hop_ind))
  else
    let base : SuperCell :=
      { prim_cell := pc, dim := dim, pbc := pbc,
        vacancy_list := [], hash_dict := [],
        vac_id_sc := [],
        orb_id_pc := buildOrbIdPc dim pc.num_orb [],
        is_locked := false, hop_modifier := [], orb_pos_modifier := opm }
    match vacancies with
    | none => .ok base
    | some vl =>
      match addVacancies base vl with
      | (some e, _) => .error e
      | (none, s) => .ok s

/-- Whether construction succeeded. -/
def exceptOk {ε α : Type} : Except ε α → Bool
  | .ok _ => true
  | .error _ => false

/-- Modelled from the spec: Lockable.lock of the base module (not in the
sources) — the one-way transition performed when a downstream consumer
(e.g. a Sample) adopts the OrbitalSet. -/
def SuperCell.lock (s : SuperCell) : SuperCell := { s with is_locked := true }

/-! ## Concrete sample states (1D chains of spec section 8) -/

/-- A 1D chain primitive cell with one orbital and one nearest-neighbour
hopping t=1 at offset +1. -/
def pcChain1 : PrimitiveCell :=
  { num_orb := 1, lat_vec := ((1, 0, 0), (0, 1, 0), (0, 0, 1)),
    origin := (0, 0, 0), orb_pos := [(0, 0, 0)], orb_eng := [0],
    hop_ind := [⟨1, 0, 0, 0, 0, ⟨1, 0⟩⟩] }

/-- A 1D chain primitive cell with two orbitals and one nearest-neighbour
hopping t=1 at offset +1 linking orbital 0 of adjacent cells. -/
def pcChain2 : PrimitiveCell :=
  { num_orb := 2, lat_vec := ((1, 0, 0), (0, 1, 0), (0, 0, 1)),
    origin := (0, 0, 0), orb_pos := [(0, 0, 0), (1/2, 0, 0)],
    orb_eng := [0, 0], hop_ind := [⟨1, 0, 0, 0, 0, ⟨1, 0⟩⟩] }

/-- A freshly constructed periodic 3-cell supercell over pcChain2
(6 supercell orbitals, no vacancies). -/
def sampleSC : SuperCell :=
  { prim_cell := pcChain2, dim := ⟨3, 1, 1⟩, pbc := ⟨true, false, false⟩,
    vacancy_list := [], hash_dict := [], vac_id_sc := [],
    orb_id_pc := buildOrbIdPc ⟨3, 1, 1⟩ 2 [], is_locked := false,
    hop_modifier := [], orb_pos_modifier := none }

/-- A periodic 2-cell supercell over pcChain1: its dimension 2 passes the
constructor check (minimum 1) yet lies in the [N, 2N] window of the
source's own NOTES. -/
def smallSC : SuperCell :=
  { prim_cell := pcChain1, dim := ⟨2, 1, 1⟩, pbc := ⟨true, false, false⟩,
    vacancy_list := [], hash_dict := [], vac_id_sc := [],
    orb_id_pc := buildOrbIdPc ⟨2, 1, 1⟩ 1 [], is_locked := false,
    hop_modifier := [], orb_pos_modifier := none }

/-- sampleSC after adding one vacancy (a reachable, synchronized state
with a nonempty vacancy list). -/
def vacSC : SuperCell :=
  (addVacancies sampleSC [⟨0, 0, 0, 1⟩]).2

/-- vacSC after being locked by a downstream consumer. -/
def lockedSC : SuperCell :=
  vacSC.lock

/-- The state invariant maintained by the OrbitalSet methods: the vacancy
list is deduplicated and within bounds, and the derived arrays are the
ones built for the last synchronized vacancy list (stored in hash_dict by
this model). -/
def scWF (s : SuperCell) : Prop :=
  s.vacancy_list.Nodup ∧
  (∀ v ∈ s.vacancy_list, validPc s.dim s.num_orb_pc v) ∧
  s.vac_id_sc = buildVacIdSc s.dim s.num_orb_pc s.hash_dict ∧
  s.orb_id_pc = buildOrbIdPc s.dim s.num_orb_pc
    (buildVacIdSc s.dim s.num_orb_pc s.hash_dict)

instance (s : SuperCell) : Decidable (scWF s) := by
  unfold scWF; infer_instance

/-- sampleSC after two add_hopping calls whose supercell index pairs
(1, 3) and (3, 1) are absent from the raw hopping terms and whose cell
offsets are not opposite, with conjugate energies 2+i and 2-i. -/
def modSC : SuperCell :=
  (addHopping (addHopping sampleSC (0, 0, 0) 1 3 ⟨2, 1⟩).2
    (1, 0, 0) 3 1 ⟨2, -1⟩).2

/-! ## Lemmas about the basic building blocks -/

theorem Cplx.conj_conj (z : Cplx) : z.conj.conj = z := by
  cases z; simp [Cplx.conj]

theorem Cplx.conj_inj {z w : Cplx} (h : z.conj = w.conj) : z = w := by
  have := congrArg Cplx.conj h
  rwa [Cplx.conj_conj, Cplx.conj_conj] at this

theorem HopPC.conjugate_conjugate (h : HopPC) : h.conjugate.conjugate = h := by
  cases h; simp [HopPC.conjugate, Cplx.conj_conj]

theorem mul_add_lt_of_lt {x X y Y : ℕ} (hx : x < X) (hy : y < Y) :
    x * Y + y < X * Y := by
  calc x * Y + y < x * Y + Y := by omega
  _ = (x + 1) * Y := by ring
  _ ≤ X * Y := Nat.mul_le_mul_right Y hx

/-- The flat encoding maps valid pc indices below the full slot count. -/
theorem idPcFlat_lt {dim : Dim3} {nOrb : ℕ} {p : PcId}
    (h : validPc dim nOrb p) : idPcFlat dim nOrb p < numOrbFull dim nOrb := by
  obtain ⟨ha, hb, hc, ho⟩ := h
  unfold idPcFlat numOrbFull
  have h1 : p.a * dim.b + p.b < dim.a * dim.b := mul_add_lt_of_lt ha hb
  have h2 : (p.a * dim.b + p.b) * dim.c + p.c < dim.a * dim.b * dim.c :=
    mul_add_lt_of_lt h1 hc
  exact mul_add_lt_of_lt h2 ho

/-- Left inverse: decoding after encoding restores a valid pc index. -/
theorem idScFlatInv_idPcFlat {dim : Dim3} {nOrb : ℕ} {p : PcId}
    (h : validPc dim nOrb p) : idScFlatInv dim nOrb (idPcFlat dim nOrb p) = p := by
  obtain ⟨ha, hb, hc, ho⟩ := h
  have hn : 0 < nOrb := by omega
  have hdc : 0 < dim.c := by omega
  have hdb : 0 < dim.b := by omega
  unfold idPcFlat idScFlatInv
  have e0 : (((p.a * dim.b + p.b) * dim.c + p.c) * nOrb + p.o) % nOrb = p.o := by
    rw [mul_comm _ nOrb, Nat.mul_add_mod, Nat.mod_eq_of_lt ho]
  have e1 : (((p.a * dim.b + p.b) * dim.c + p.c) * nOrb + p.o) / nOrb
      = (p.a * dim.b + p.b) * dim.c + p.c := by
    rw [mul_comm _ nOrb, Nat.mul_add_div hn, Nat.div_eq_of_lt ho, Nat.add_zero]
  have e2 : ((p.a * dim.b + p.b) * dim.c + p.c) % dim.c = p.c := by
    rw [mul_comm _ dim.c, Nat.mul_add_mod, Nat.mod_eq_of_lt hc]
  have e3 : ((p.a * dim.b + p.b) * dim.c + p.c) / dim.c = p.a * dim.b + p.b := by
    rw [mul_comm _ dim.c, Nat.mul_add_div hdc, Nat.div_eq_of_lt hc, Nat.add_zero]
  have e4 : (p.a * dim.b + p.b) % dim.b = p.b := by
    rw [mul_comm _ dim.b, Nat.mul_add_mod, Nat.mod_eq_of_lt hb]
  have e5 : (p.a * dim.b + p.b) / dim.b = p.a := by
    rw [mul_comm _ dim.b, Nat.mul_add_div hdb, Nat.div_eq_of_lt hb, Nat.add_zero]
  cases p
  simp only [e0, e1, e2, e3, e4, e5] at *

/-- Right inverse: encoding after decoding restores any flat id. -/
theorem idPcFlat_idScFlatInv {dim : Dim3} {nOrb : ℕ} (f : ℕ) :
    idPcFlat dim nOrb (idScFlatInv dim nOrb f) = f := by
  unfold idPcFlat idScFlatInv
  have h1 : f / nOrb / dim.c / dim.b * dim.b + f / nOrb / dim.c % dim.b
      = f / nOrb / dim.c := by
    rw [mul_comm]; exact Nat.div_add_mod _ _
  have h2 : f / nOrb / dim.c * dim.c + f / nOrb % dim.c = f / nOrb := by
    rw [mul_comm]; exact Nat.div_add_mod _ _
  have h3 : f / nOrb * nOrb + f % nOrb = f := by
    rw [mul_comm]; exact Nat.div_add_mod _ _
  simp only [h1, h2, h3]

/-- Decoding an in-range flat id yields a valid pc index. -/
theorem validPc_idScFlatInv {dim : Dim3} {nOrb : ℕ} {f : ℕ}
    (h : f < numOrbFull dim nOrb) : validPc dim nOrb (idScFlatInv dim nOrb f) := by
  unfold numOrbFull at h
  have hT : 0 < dim.a * dim.b * dim.c * nOrb := Nat.lt_of_le_of_lt (Nat.zero_le f) h
  have hn : 0 < nOrb := by
    rcases Nat.eq_zero_or_pos nOrb with h0 | h0
    · simp [h0] at hT
    · exact h0
  have hdc : 0 < dim.c := by
    rcases Nat.eq_zero_or_pos dim.c with h0 | h0
    · simp [h0] at hT
    · exact h0
  have hdb : 0 < dim.b := by
    rcases Nat.eq_zero_or_pos dim.b with h0 | h0
    · simp [h0] at hT
    · exact h0
  refine ⟨?_, ?_, ?_, ?_⟩
  · show f / nOrb / dim.c / dim.b < dim.a
    rw [Nat.div_lt_iff_lt_mul hdb, Nat.div_lt_iff_lt_mul hdc, Nat.div_lt_iff_lt_mul hn]
    exact lt_of_lt_of_le h (le_of_eq (by ring))
  · exact Nat.mod_lt _ hdb
  · exact Nat.mod_lt _ hdc
  · exact Nat.mod_lt _ hn

/-- The flat encoding is injective on valid pc indices. -/
theorem idPcFlat_inj {dim : Dim3} {nOrb : ℕ} {p q : PcId}
    (hp : validPc dim nOrb p) (hq : validPc dim nOrb q)
    (h : idPcFlat dim nOrb p = idPcFlat dim nOrb q) : p = q := by
  have := congrArg (idScFlatInv dim nOrb) h
  rwa [idScFlatInv_idPcFlat hp, idScFlatInv_idPcFlat hq] at this

set_option linter.unnecessarySeqFocus false in
theorem checkIdPcAxis_eq_none {dim : Dim3} {nOrb : ℕ} {p : PcId} :
    checkIdPcAxis dim nOrb p = none ↔ validPc dim nOrb p := by
  unfold checkIdPcAxis validPc
  by_cases h1 : dim.a ≤ p.a <;> by_cases h2 : dim.b ≤ p.b <;>
    by_cases h3 : dim.c ≤ p.c <;> by_cases h4 : nOrb ≤ p.o <;>
    simp [h1, h2, h3, h4] <;> omega

theorem firstIdx_eq_none_iff {α : Type} {p : α → Bool} {l : List α} :
    firstIdx p l = none ↔ ∀ x ∈ l, p x = false := by
  induction l with
  | nil => simp [firstIdx]
  | cons x xs ih =>
    by_cases hx : p x <;> simp [firstIdx, hx, ih, Option.map_eq_none]

theorem firstIdx_eq_some_iff {α : Type} {p : α → Bool} {l : List α} {i : ℕ} :
    firstIdx p l = some i ↔
      ∃ h : i < l.length, p (l.get ⟨i, h⟩) = true ∧
        ∀ j (hj : j < i), p (l.get ⟨j, by omega⟩) = false := by
  induction l generalizing i with
  | nil => simp [firstIdx]
  | cons x xs ih =>
    by_cases hx : p x
    · simp only [firstIdx, hx, if_pos]
      constructor
      · rintro h
        cases h
        exact ⟨by simp, by simpa using hx, by omega⟩
      · rintro ⟨h, hp, hfirst⟩
        cases i with
        | zero => rfl
        | succ i0 =>
          exact absurd hx (by simpa using hfirst 0 (Nat.succ_pos i0))
    · simp only [firstIdx, hx, if_neg, Bool.false_eq_true, not_false_iff]
      cases i with
      | zero =>
        simp only [Option.map_eq_some']
        constructor
        · rintro ⟨j, _, hj⟩; omega
        · rintro ⟨h, hp, _⟩
          exact absurd (by simpa using hp) hx
      | succ i0 =>
        simp only [Option.map_eq_some']
        constructor
        · rintro ⟨j, hj, hji⟩
          have hj0 : j = i0 := by omega
          subst hj0
          obtain ⟨h, hp, hfirst⟩ := ih.mp hj
          refine ⟨by simpa using h, by simpa using hp, ?_⟩
          intro j hji0
          cases j with
          | zero => simpa using hx
          | succ j0 => simpa using hfirst j0 (by omega)
        · rintro ⟨h, hp, hfirst⟩
          refine ⟨i0, ih.mpr ⟨by simpa using h, by simpa using hp, ?_⟩, rfl⟩
          intro j hji0
          simpa using hfirst (j + 1) (by omega)

theorem firstIdx_eq_some_of_getD {α : Type} (p : α → Bool) (l : List α) (d : α)
    (i : ℕ) (hi : i < l.length) (hp : p (l.getD i d) = true)
    (hfirst : ∀ j, j < i → p (l.getD j d) = false) : firstIdx p l = some i := by
  apply firstIdx_eq_some_iff.mpr
  refine ⟨hi, ?_, ?_⟩
  · rw [List.get_eq_getElem, ← List.getD_eq_getElem l d hi]
    exact hp
  · intro j hj
    rw [List.get_eq_getElem, ← List.getD_eq_getElem l d (by omega)]
    exact hfirst j hj

/-! ## Properties of the vacancy compaction -/

theorem liveFlat_succ (v : List ℕ) (T : ℕ) :
    liveFlat v (T + 1) =
      liveFlat v T ++ (if isVacFlat v T = false then [T] else []) := by
  unfold liveFlat
  rw [List.range_succ, List.filter_append]
  by_cases h : isVacFlat v T <;> simp [h]

theorem countVacBelow_le (v : List ℕ) (f : ℕ) : countVacBelow v f ≤ f := by
  calc countVacBelow v f ≤ (List.range f).length := List.countP_le_length _
  _ = f := List.length_range f

theorem liveFlat_length (v : List ℕ) (T : ℕ) :
    (liveFlat v T).length = T - countVacBelow v T := by
  unfold liveFlat countVacBelow
  rw [← List.countP_eq_length_filter]
  have h := List.length_eq_countP_add_countP (isVacFlat v) (List.range T)
  have e : (List.range T).countP (fun a => decide ¬isVacFlat v a = true)
      = (List.range T).countP (fun f => !(isVacFlat v f)) := by
    apply List.countP_congr
    intro x _
    by_cases hx : isVacFlat v x <;> simp [hx]
  rw [List.length_range] at h
  omega

/-- The central compaction identity: the i-th surviving flat id compacts
back to i. -/
theorem liveFlat_getD_compact (v : List ℕ) (T : ℕ) :
    ∀ i, i < (liveFlat v T).length →
      (liveFlat v T).getD i 0 - countVacBelow v ((liveFlat v T).getD i 0) = i := by
  induction T with
  | zero => intro i h; simp [liveFlat] at h
  | succ T ih =>
    intro i h
    by_cases hvac : isVacFlat v T
    · have e : liveFlat v (T + 1) = liveFlat v T := by
        rw [liveFlat_succ]; simp [hvac]
      rw [e] at h ⊢
      exact ih i h
    · have e : liveFlat v (T + 1) = liveFlat v T ++ [T] := by
        rw [liveFlat_succ]; simp [hvac]
      have hlen : (liveFlat v (T + 1)).length = (liveFlat v T).length + 1 := by
        rw [e]; simp
      by_cases hi : i < (liveFlat v T).length
      · have hget : (liveFlat v (T + 1)).getD i 0 = (liveFlat v T).getD i 0 := by
          rw [e]; exact List.getD_append _ _ _ _ hi
        rw [hget]
        exact ih i hi
      · have hi2 : i = (liveFlat v T).length := by omega
        have hget : (liveFlat v (T + 1)).getD i 0 = T := by
          rw [e, List.getD_eq_getElem?_getD, List.getElem?_append_right (by omega), hi2]
          simp
        rw [hget, hi2, liveFlat_length]

/-- Compaction is injective on surviving flat ids. -/
theorem compact_inj (v : List ℕ) (T : ℕ) {f g : ℕ}
    (hf : isVacFlat v f = false) (hg : isVacFlat v g = false)
    (hfT : f < T) (hgT : g < T)
    (h : f - countVacBelow v f = g - countVacBelow v g) : f = g := by
  have hfmem : f ∈ liveFlat v T := by
    unfold liveFlat
    rw [List.mem_filter]
    exact ⟨List.mem_range.mpr hfT, by simp [hf]⟩
  have hgmem : g ∈ liveFlat v T := by
    unfold liveFlat
    rw [List.mem_filter]
    exact ⟨List.mem_range.mpr hgT, by simp [hg]⟩
  obtain ⟨nf, hnf, hnfe⟩ := List.getElem_of_mem hfmem
  obtain ⟨ng, hng, hnge⟩ := List.getElem_of_mem hgmem
  have cf := liveFlat_getD_compact v T nf hnf
  have cg := liveFlat_getD_compact v T ng hng
  rw [List.getD_eq_getElem _ _ hnf, hnfe] at cf
  rw [List.getD_eq_getElem _ _ hng, hnge] at cg
  have hidx : nf = ng := by omega
  rw [← hnfe, ← hnge]
  congr 1

/-- Every element of liveFlat survives and is within range. -/
theorem liveFlat_mem {v : List ℕ} {T f : ℕ} (h : f ∈ liveFlat v T) :
    f < T ∧ isVacFlat v f = false := by
  unfold liveFlat at h
  rw [List.mem_filter] at h
  exact ⟨List.mem_range.mp h.1, by simpa using h.2⟩

/-! ## State-machine lemmas -/

theorem syncArray_idem (s : SuperCell) : syncArray (syncArray s) = syncArray s := by
  by_cases h : s.vacancy_list = s.hash_dict
  · simp [syncArray, h]
  · simp [syncArray, h]

theorem syncArray_vacancy_list (s : SuperCell) :
    (syncArray s).vacancy_list = s.vacancy_list := by
  by_cases h : s.vacancy_list = s.hash_dict <;> simp [syncArray, h]

theorem syncArray_num_orb_sc (s : SuperCell) :
    (syncArray s).num_orb_sc = s.num_orb_sc := by
  by_cases h : s.vacancy_list = s.hash_dict <;>
    simp [syncArray, h, SuperCell.num_orb_sc, SuperCell.num_orb_pc]

theorem syncArray_dim (s : SuperCell) : (syncArray s).dim = s.dim := by
  by_cases h : s.vacancy_list = s.hash_dict <;> simp [syncArray, h]

theorem syncArray_num_orb_pc (s : SuperCell) :
    (syncArray s).num_orb_pc = s.num_orb_pc := by
  by_cases h : s.vacancy_list = s.hash_dict <;>
    simp [syncArray, h, SuperCell.num_orb_pc]

/-- After synchronization the derived arrays are the ones built for the
current vacancy list (given the state invariant). -/
theorem syncArray_arrays (s : SuperCell)
    (h3 : s.vac_id_sc = buildVacIdSc s.dim s.num_orb_pc s.hash_dict)
    (h4 : s.orb_id_pc = buildOrbIdPc s.dim s.num_orb_pc
      (buildVacIdSc s.dim s.num_orb_pc s.hash_dict)) :
    (syncArray s).vac_id_sc = buildVacIdSc s.dim s.num_orb_pc s.vacancy_list ∧
    (syncArray s).orb_id_pc = buildOrbIdPc s.dim s.num_orb_pc
      (buildVacIdSc s.dim s.num_orb_pc s.vacancy_list) := by
  by_cases h : s.vacancy_list = s.hash_dict
  · rw [syncArray, if_pos h, h]
    exact ⟨h3, h4⟩
  · rw [syncArray, if_neg h]
    exact ⟨rfl, rfl⟩

/-- Counting the members of a deduplicated bounded list over List.range
yields its length. -/
theorem countP_mem_range_of_nodup (l : List ℕ) (T : ℕ) (hnd : l.Nodup)
    (hlt : ∀ x ∈ l, x < T) :
    (List.range T).countP (fun f => decide (f ∈ l)) = l.length := by
  rw [List.countP_eq_length_filter]
  have hperm : List.Perm ((List.range T).filter (fun f => decide (f ∈ l))) l := by
    apply (List.perm_ext_iff_of_nodup ((List.nodup_range T).filter _) hnd).mpr
    intro a
    constructor
    · intro ha
      have := List.mem_filter.mp ha
      simpa using this.2
    · intro ha
      apply List.mem_filter.mpr
      exact ⟨List.mem_range.mpr (hlt a ha), by simpa using ha⟩
  exact hperm.length_eq

/-- The add_vacancies scanning loop stops at the first offending batch
element, leaving exactly the scanned prefix committed. -/
theorem addVacanciesAux_first_bad (dim : Dim3) (n : ℕ) (batch : List PcId) :
    ∀ (vl : List PcId) (k : ℕ), k < batch.length →
      ∀ (i : ℕ),
      checkIdPcAxis dim n (batch.getD k ⟨0, 0, 0, 0⟩) = some i →
      (∀ j, j < k → checkIdPcAxis dim n (batch.getD j ⟨0, 0, 0, 0⟩) = none) →
      addVacanciesAux dim n vl batch
        = (some (.vacIdPcIndex i (batch.getD k ⟨0, 0, 0, 0⟩)),
           (addVacanciesAux dim n vl (batch.take k)).2) := by
  induction batch with
  | nil => intro vl k hk; simp at hk
  | cons v rest ih =>
    intro vl k hk i hbad hfirst
    cases k with
    | zero =>
      simp only [List.getD_cons_zero] at hbad ⊢
      simp [addVacanciesAux, hbad]
    | succ k0 =>
      have hv : checkIdPcAxis dim n v = none := by
        simpa using hfirst 0 (Nat.succ_pos k0)
      simp only [List.getD_cons_succ] at hbad ⊢
      have hfirst0 : ∀ j, j < k0 →
          checkIdPcAxis dim n (rest.getD j ⟨0, 0, 0, 0⟩) = none := by
        intro j hj
        simpa using hfirst (j + 1) (by omega)
      have := ih (if v ∈ vl then vl else vl ++ [v]) k0 (by simpa using hk) i hbad hfirst0
      simp only [addVacanciesAux, hv, List.take_succ_cons]
      exact this

/-- The one-pass pc-array check reports the first offending element,
distinguishing an index error from a vacancy error. -/
theorem checkIdPcArray_first (dim : Dim3) (n : ℕ) (vac : List ℕ) (ps : List PcId) :
    ∀ (k : ℕ), k < ps.length →
      (∀ j, j < k → checkIdPcAxis dim n (ps.getD j ⟨0, 0, 0, 0⟩) = none ∧
        isVacFlat vac (idPcFlat dim n (ps.getD j ⟨0, 0, 0, 0⟩)) = false) →
      (∀ i, checkIdPcAxis dim n (ps.getD k ⟨0, 0, 0, 0⟩) = some i →
        checkIdPcArray dim n vac ps = some (.idPcIndex i (ps.getD k ⟨0, 0, 0, 0⟩))) ∧
      (checkIdPcAxis dim n (ps.getD k ⟨0, 0, 0, 0⟩) = none →
        isVacFlat vac (idPcFlat dim n (ps.getD k ⟨0, 0, 0, 0⟩)) = true →
        checkIdPcArray dim n vac ps = some (.idPcVac (ps.getD k ⟨0, 0, 0, 0⟩))) := by
  induction ps with
  | nil => intro k hk; simp at hk
  | cons p rest ih =>
    intro k hk hfirst
    cases k with
    | zero =>
      constructor
      · intro i hbad
        simp only [List.getD_cons_zero] at hbad ⊢
        simp [checkIdPcArray, hbad]
      · intro hok hvac
        simp only [List.getD_cons_zero] at hok hvac ⊢
        simp [checkIdPcArray, hok, hvac]
    | succ k0 =>
      have hp : checkIdPcAxis dim n p = none ∧
          isVacFlat vac (idPcFlat dim n p) = false := by
        simpa using hfirst 0 (Nat.succ_pos k0)
      have hfirst0 : ∀ j, j < k0 →
          checkIdPcAxis dim n (rest.getD j ⟨0, 0, 0, 0⟩) = none ∧
          isVacFlat vac (idPcFlat dim n (rest.getD j ⟨0, 0, 0, 0⟩)) = false := by
        intro j hj
        simpa using hfirst (j + 1) (by omega)
      have hrec := ih k0 (by simpa using hk) hfirst0
      constructor
      · intro i hbad
        simp only [List.getD_cons_succ] at hbad ⊢
        simpa [checkIdPcArray, hp.1, hp.2] using hrec.1 i hbad
      · intro hok hvac
        simp only [List.getD_cons_succ] at hok hvac ⊢
        simpa [checkIdPcArray, hp.1, hp.2] using hrec.2 hok hvac

/-! ## Hopping generation lemmas -/

theorem mem_cellsOf {dim : Dim3} {r : ℕ × ℕ × ℕ} :
    r ∈ cellsOf dim ↔ r.1 < dim.a ∧ r.2.1 < dim.b ∧ r.2.2 < dim.c := by
  obtain ⟨a, b, c⟩ := r
  unfold cellsOf
  rw [List.mem_product, List.mem_product]
  simp [List.mem_range, and_assoc]

theorem cellsOf_nodup (dim : Dim3) : (cellsOf dim).Nodup :=
  (List.nodup_range dim.a).product ((List.nodup_range dim.b).product
    (List.nodup_range dim.c))

theorem wrapAxis_lt {d : ℕ} {p : Bool} {n : ℤ} {m : ℕ} (hd : 0 < d)
    (h : wrapAxis d p n = some m) : m < d := by
  unfold wrapAxis at h
  by_cases h1 : 0 ≤ n ∧ n < (d : ℤ)
  · rw [if_pos h1] at h
    cases h
    omega
  · rw [if_neg h1] at h
    by_cases h2 : p = true
    · rw [if_pos h2] at h
      cases h
      have := Int.emod_nonneg n (by omega : (d : ℤ) ≠ 0)
      have := Int.emod_lt_of_pos n (by omega : (0 : ℤ) < d)
      omega
    · rw [if_neg h2] at h
      cases h

theorem wrapAxis_mod {d : ℕ} {p : Bool} {n : ℤ} {m : ℕ} (hd : 0 < d)
    (h : wrapAxis d p n = some m) : (m : ℤ) % d = n % d := by
  unfold wrapAxis at h
  by_cases h1 : 0 ≤ n ∧ n < (d : ℤ)
  · rw [if_pos h1] at h
    cases h
    rw [Int.toNat_of_nonneg h1.1]
  · rw [if_neg h1] at h
    by_cases h2 : p = true
    · rw [if_pos h2] at h
      cases h
      have hnn := Int.emod_nonneg n (by omega : (d : ℤ) ≠ 0)
      have hlt := Int.emod_lt_of_pos n (by omega : (0 : ℤ) < d)
      rw [Int.toNat_of_nonneg hnn, Int.emod_emod_of_dvd n (dvd_refl _)]
    · rw [if_neg h2] at h
      cases h

theorem wrapAxis_free {d : ℕ} {n : ℤ} {m : ℕ}
    (h : wrapAxis d false n = some m) : n = (m : ℤ) ∧ m < d := by
  unfold wrapAxis at h
  by_cases h1 : 0 ≤ n ∧ n < (d : ℤ)
  · rw [if_pos h1] at h
    cases h
    constructor
    · rw [Int.toNat_of_nonneg h1.1]
    · omega
  · rw [if_neg h1, if_neg (Bool.false_ne_true)] at h
    cases h

theorem wrapAxis_safe_eq {d : ℕ} {p : Bool} {R : ℤ} (rr : ℕ) (hd : rr < d)
    (hsafe : R = 0 ∨ p = true) :
    wrapAxis d p ((rr : ℤ) + R) = some (((rr : ℤ) + R) % (d : ℤ)).toNat := by
  rcases hsafe with h0 | hp
  · subst h0
    unfold wrapAxis
    rw [if_pos ⟨by omega, by omega⟩]
    congr 1
    rw [Int.emod_eq_of_lt (by omega) (by omega)]
  · subst hp
    unfold wrapAxis
    by_cases h1 : 0 ≤ (rr : ℤ) + R ∧ (rr : ℤ) + R < (d : ℤ)
    · rw [if_pos h1]
      congr 1
      rw [Int.emod_eq_of_lt h1.1 h1.2]
    · rw [if_neg h1, if_pos rfl]

/-- Characterization of a successful emission of the general algorithm. -/
theorem emitHop_elim {dim : Dim3} {pbc : Pbc3} {nOrb : ℕ} {vac : List ℕ}
    {h : HopPC} {r : ℕ × ℕ × ℕ} {t : Hop}
    (ht : emitHop dim pbc nOrb vac h r = some t) :
    ∃ a2 b2 c2,
      wrapAxis dim.a pbc.a ((r.1 : ℤ) + h.ra) = some a2 ∧
      wrapAxis dim.b pbc.b ((r.2.1 : ℤ) + h.rb) = some b2 ∧
      wrapAxis dim.c pbc.c ((r.2.2 : ℤ) + h.rc) = some c2 ∧
      isVacFlat vac (idPcFlat dim nOrb ⟨r.1, r.2.1, r.2.2, h.oi⟩) = false ∧
      isVacFlat vac (idPcFlat dim nOrb ⟨a2, b2, c2, h.oj⟩) = false ∧
      t = ⟨idPcFlat dim nOrb ⟨r.1, r.2.1, r.2.2, h.oi⟩
             - countVacBelow vac (idPcFlat dim nOrb ⟨r.1, r.2.1, r.2.2, h.oi⟩),
           idPcFlat dim nOrb ⟨a2, b2, c2, h.oj⟩
             - countVacBelow vac (idPcFlat dim nOrb ⟨a2, b2, c2, h.oj⟩),
           h.v⟩ := by
  unfold emitHop at ht
  rcases hwa : wrapAxis dim.a pbc.a ((r.1 : ℤ) + h.ra) with _ | a2 <;> rw [hwa] at ht
  · cases ht
  rcases hwb : wrapAxis dim.b pbc.b ((r.2.1 : ℤ) + h.rb) with _ | b2 <;> rw [hwb] at ht
  · cases ht
  rcases hwc : wrapAxis dim.c pbc.c ((r.2.2 : ℤ) + h.rc) with _ | c2 <;> rw [hwc] at ht
  · cases ht
  simp only at ht
  by_cases hv : (isVacFlat vac (idPcFlat dim nOrb ⟨r.1, r.2.1, r.2.2, h.oi⟩)
      || isVacFlat vac (idPcFlat dim nOrb ⟨a2, b2, c2, h.oj⟩)) = true
  · rw [if_pos hv] at ht
    cases ht
  · rw [if_neg hv] at ht
    rw [Bool.or_eq_true, not_or] at hv
    cases ht
    exact ⟨a2, b2, c2, rfl, rfl, rfl,
      by simpa using hv.1, by simpa using hv.2, rfl⟩

theorem countVacBelow_nil (f : ℕ) : countVacBelow [] f = 0 := by
  unfold countVacBelow
  apply List.countP_eq_zero.mpr
  intro a _
  simp [isVacFlat]

theorem isVacFlat_nil (f : ℕ) : isVacFlat [] f = false := by
  simp [isVacFlat]

/-- With no vacancies, the general emission of a periodic-safe entry
coincides with the closed-form fast emission, cell by cell. -/
theorem emitHop_safe_eq {dim : Dim3} {pbc : Pbc3} {nOrb : ℕ} {h : HopPC}
    (hsafe : hopSafePbc pbc h = true) {r : ℕ × ℕ × ℕ} (hr : r ∈ cellsOf dim) :
    emitHop dim pbc nOrb [] h r = some (emitHopPbc dim nOrb h r) := by
  obtain ⟨hra, hrb, hrc⟩ := mem_cellsOf.mp hr
  unfold hopSafePbc at hsafe
  rw [Bool.and_eq_true, Bool.and_eq_true] at hsafe
  obtain ⟨⟨hsa, hsb⟩, hsc⟩ := hsafe
  have hsa2 : h.ra = 0 ∨ pbc.a = true := by
    rcases Bool.or_eq_true _ _ |>.mp hsa with h1 | h1
    · exact Or.inl (by simpa using h1)
    · exact Or.inr h1
  have hsb2 : h.rb = 0 ∨ pbc.b = true := by
    rcases Bool.or_eq_true _ _ |>.mp hsb with h1 | h1
    · exact Or.inl (by simpa using h1)
    · exact Or.inr h1
  have hsc2 : h.rc = 0 ∨ pbc.c = true := by
    rcases Bool.or_eq_true _ _ |>.mp hsc with h1 | h1
    · exact Or.inl (by simpa using h1)
    · exact Or.inr h1
  unfold emitHop
  rw [wrapAxis_safe_eq r.1 hra hsa2, wrapAxis_safe_eq r.2.1 hrb hsb2,
    wrapAxis_safe_eq r.2.2 hrc hsc2]
  simp only [isVacFlat_nil, Bool.or_self, if_neg (Bool.false_ne_true),
    countVacBelow_nil, Nat.sub_zero]
  rfl

theorem filterMap_eq_map_of {α β : Type} {l : List α} {f : α → Option β}
    {g : α → β} (h : ∀ a ∈ l, f a = some (g a)) : l.filterMap f = l.map g := by
  induction l with
  | nil => rfl
  | cons a rest ih =>
    rw [List.filterMap_cons, h a (List.mem_cons_self _ _), List.map_cons,
      ih (fun x hx => h x (List.mem_cons_of_mem a hx))]

/-- With no vacancies, the general algorithm restricted to periodic-safe
entries equals the closed-form fast builder. -/
theorem buildHop_safe_eq (hops : List HopPC) (dim : Dim3) (pbc : Pbc3)
    (nOrb : ℕ) (hsafe : ∀ h ∈ hops, hopSafePbc pbc h = true) :
    buildHop hops dim pbc nOrb [] = buildHopPbc hops dim nOrb := by
  unfold buildHop buildHopPbc
  induction hops with
  | nil => rfl
  | cons h rest ih =>
    rw [List.flatMap_cons, List.flatMap_cons,
      filterMap_eq_map_of (fun r hr => emitHop_safe_eq (hsafe h (List.mem_cons_self _ _)) hr),
      ih (fun x hx => hsafe x (List.mem_cons_of_mem h hx))]

theorem buildHop_eq_product (hops : List HopPC) (dim : Dim3) (pbc : Pbc3)
    (nOrb : ℕ) (vac : List ℕ) :
    buildHop hops dim pbc nOrb vac
      = (hops ×ˢ cellsOf dim).filterMap
          (fun z => emitHop dim pbc nOrb vac z.1 z.2) := by
  unfold buildHop
  induction hops with
  | nil => simp
  | cons h rest ih =>
    rw [List.flatMap_cons, List.product_cons, List.filterMap_append,
      List.filterMap_map, ih]
    rfl

theorem pairwise_filterMap_of {α β : Type} {R : β → β → Prop}
    {f : α → Option β} {l : List α} (hnd : l.Nodup)
    (h : ∀ a ∈ l, ∀ b ∈ l, a ≠ b → ∀ x, f a = some x → ∀ y, f b = some y → R x y) :
    (l.filterMap f).Pairwise R := by
  induction l with
  | nil => exact List.Pairwise.nil
  | cons a rest ih =>
    have hnd2 := List.nodup_cons.mp hnd
    rw [List.filterMap_cons]
    rcases hfa : f a with _ | x
    · exact ih hnd2.2 (fun p hp q hq hpq => h p (List.mem_cons_of_mem a hp)
        q (List.mem_cons_of_mem a hq) hpq)
    · apply List.Pairwise.cons
      · intro y hy
        obtain ⟨b, hb, hfb⟩ := List.mem_filterMap.mp hy
        have hab : a ≠ b := fun hab => hnd2.1 (hab ▸ hb)
        exact h a (List.mem_cons_self _ _) b (List.mem_cons_of_mem a hb) hab x hfa y hfb
      · exact ih hnd2.2 (fun p hp q hq hpq => h p (List.mem_cons_of_mem a hp)
          q (List.mem_cons_of_mem a hq) hpq)

theorem flatMap_eq_nil_of {α β : Type} {l : List α} {g : α → List β}
    (h : ∀ a ∈ l, g a = []) : l.flatMap g = [] := by
  induction l with
  | nil => rfl
  | cons a rest ih =>
    rw [List.flatMap_cons, h a (List.mem_cons_self _ _),
      ih (fun x hx => h x (List.mem_cons_of_mem a hx)), List.nil_append]

theorem flatMap_eq_filter_flatMap {α β : Type} {l : List α} {g : α → List β}
    {p : α → Bool} (h : ∀ a ∈ l, p a = false → g a = []) :
    l.flatMap g = (l.filter p).flatMap g := by
  induction l with
  | nil => rfl
  | cons a rest ih =>
    have ih2 := ih (fun x hx hpx => h x (List.mem_cons_of_mem a hx) hpx)
    rw [List.flatMap_cons, List.filter_cons]
    by_cases hpa : p a
    · rw [if_pos hpa, List.flatMap_cons, ih2]
    · rw [if_neg hpa, h a (List.mem_cons_self _ _) (by simpa using hpa),
        List.nil_append, ih2]

theorem hopFiber_append (b k : ℕ) (l₁ l₂ : List Hop) :
    hopFiber b k (l₁ ++ l₂) = hopFiber b k l₁ ++ hopFiber b k l₂ :=
  List.filter_append _ _

theorem hopFiber_flatMap {α : Type} (b k : ℕ) (l : List α) (g : α → List Hop) :
    hopFiber b k (l.flatMap g) = l.flatMap (fun a => hopFiber b k (g a)) := by
  induction l with
  | nil => rfl
  | cons a rest ih =>
    rw [List.flatMap_cons, List.flatMap_cons, hopFiber_append, ih]

theorem hopSameKey_iff {b k : ℕ} {t : Hop} :
    hopSameKey b k t = true ↔ t.i = b ∧ t.j = k := by
  unfold hopSameKey
  rw [Bool.and_eq_true, beq_iff_eq, beq_iff_eq]

theorem hopSafePbc_iff {pbc : Pbc3} {h : HopPC} :
    hopSafePbc pbc h = true ↔
      (h.ra = 0 ∨ pbc.a = true) ∧ (h.rb = 0 ∨ pbc.b = true) ∧
      (h.rc = 0 ∨ pbc.c = true) := by
  unfold hopSafePbc
  rw [Bool.and_eq_true, Bool.and_eq_true, Bool.or_eq_true, Bool.or_eq_true,
    Bool.or_eq_true, beq_iff_eq, beq_iff_eq, beq_iff_eq]
  tauto

/-- A periodic-safe entry and a non-safe entry can never emit terms with
the same (bra, ket) pair: the bra fixes the cell, and on the free axis
with nonzero offset the ket cells must then differ. -/
theorem emit_cross_exclusion {dim : Dim3} {pbc : Pbc3} {nOrb : ℕ}
    {h h' : HopPC} (hsafe : hopSafePbc pbc h = true)
    (hfree : hopSafePbc pbc h' = false)
    (horb : h.oi < nOrb ∧ h.oj < nOrb) (horb' : h'.oi < nOrb ∧ h'.oj < nOrb)
    {r r' : ℕ × ℕ × ℕ} (hr : r ∈ cellsOf dim) (hr' : r' ∈ cellsOf dim)
    {t t' : Hop} (ht : emitHop dim pbc nOrb [] h r = some t)
    (ht' : emitHop dim pbc nOrb [] h' r' = some t') :
    ¬(t.i = t'.i ∧ t.j = t'.j) := by
  rintro ⟨e1, e2⟩
  obtain ⟨hra, hrb, hrc⟩ := mem_cellsOf.mp hr
  obtain ⟨hra', hrb', hrc'⟩ := mem_cellsOf.mp hr'
  have hda : 0 < dim.a := by omega
  have hdb : 0 < dim.b := by omega
  have hdc : 0 < dim.c := by omega
  obtain ⟨a2, b2, c2, hwa, hwb, hwc, _, _, hteq⟩ := emitHop_elim ht
  obtain ⟨a2', b2', c2', hwa', hwb', hwc', _, _, hteq'⟩ := emitHop_elim ht'
  subst hteq
  subst hteq'
  simp only [countVacBelow_nil, Nat.sub_zero] at e1 e2
  have hvb : validPc dim nOrb ⟨r.1, r.2.1, r.2.2, h.oi⟩ :=
    ⟨hra, hrb, hrc, horb.1⟩
  have hvb' : validPc dim nOrb ⟨r'.1, r'.2.1, r'.2.2, h'.oi⟩ :=
    ⟨hra', hrb', hrc', horb'.1⟩
  have hvk : validPc dim nOrb ⟨a2, b2, c2, h.oj⟩ :=
    ⟨wrapAxis_lt hda hwa, wrapAxis_lt hdb hwb, wrapAxis_lt hdc hwc, horb.2⟩
  have hvk' : validPc dim nOrb ⟨a2', b2', c2', h'.oj⟩ :=
    ⟨wrapAxis_lt hda hwa', wrapAxis_lt hdb hwb', wrapAxis_lt hdc hwc', horb'.2⟩
  have hbra := idPcFlat_inj hvb hvb' e1
  have hket := idPcFlat_inj hvk hvk' e2
  rw [PcId.mk.injEq] at hbra hket
  obtain ⟨hr1, hr2, hr3, _⟩ := hbra
  obtain ⟨hk1, hk2, hk3, _⟩ := hket
  obtain ⟨hs1, hs2, hs3⟩ := hopSafePbc_iff.mp hsafe
  have hun : ¬((h'.ra = 0 ∨ pbc.a = true) ∧ (h'.rb = 0 ∨ pbc.b = true) ∧
      (h'.rc = 0 ∨ pbc.c = true)) := by
    intro hcon
    rw [hopSafePbc_iff.mpr hcon] at hfree
    exact absurd hfree (by simp)
  by_cases hA : h'.ra = 0 ∨ pbc.a = true
  · by_cases hB : h'.rb = 0 ∨ pbc.b = true
    · by_cases hC : h'.rc = 0 ∨ pbc.c = true
      · exact hun ⟨hA, hB, hC⟩
      · -- free axis c with nonzero offset for the non-safe entry
        have hpc : pbc.c = false := by
          cases hpbc : pbc.c
          · rfl
          · exact absurd (Or.inr hpbc) hC
        have hc0 : h.rc = 0 := by
          rcases hs3 with h0 | h0
          · exact h0
          · rw [hpc] at h0; exact absurd h0 Bool.false_ne_true
        rw [hpc] at hwc hwc'
        have hfree := wrapAxis_free hwc
        have hfree' := wrapAxis_free hwc'
        have : h'.rc = 0 := by omega
        exact hC (Or.inl this)
    · have hpb : pbc.b = false := by
        cases hpbc : pbc.b
        · rfl
        · exact absurd (Or.inr hpbc) hB
      have hb0 : h.rb = 0 := by
        rcases hs2 with h0 | h0
        · exact h0
        · rw [hpb] at h0; exact absurd h0 Bool.false_ne_true
      rw [hpb] at hwb hwb'
      have hfree := wrapAxis_free hwb
      have hfree' := wrapAxis_free hwb'
      have : h'.rb = 0 := by omega
      exact hB (Or.inl this)
  · have hpa : pbc.a = false := by
      cases hpbc : pbc.a
      · rfl
      · exact absurd (Or.inr hpbc) hA
    have ha0 : h.ra = 0 := by
      rcases hs1 with h0 | h0
      · exact h0
      · rw [hpa] at h0; exact absurd h0 Bool.false_ne_true
    rw [hpa] at hwa hwa'
    have hfree := wrapAxis_free hwa
    have hfree' := wrapAxis_free hwa'
    have : h'.ra = 0 := by omega
    exact hA (Or.inl this)

/-- Splitting a flatMap by a predicate whose two sides cannot both
contribute to the same output. -/
theorem fiber_partition_eq {α : Type} (l : List α) (p : α → Bool)
    (g : α → List Hop)
    (hexcl : ∀ a ∈ l, ∀ b ∈ l, p a = true → p b = false → g a ≠ [] → g b = []) :
    (l.filter p).flatMap g ++ (l.filter (fun x => !(p x))).flatMap g
      = l.flatMap g := by
  by_cases hall : ∀ a ∈ l, p a = true → g a = []
  · have h1 : (l.filter p).flatMap g = [] :=
      flatMap_eq_nil_of (fun x hx =>
        hall x (List.mem_filter.mp hx).1 (List.mem_filter.mp hx).2)
    have h2 : l.flatMap g = (l.filter (fun x => !(p x))).flatMap g := by
      apply flatMap_eq_filter_flatMap
      intro x hx hpx
      exact hall x hx (by simpa using hpx)
    rw [h1, List.nil_append, h2]
  · push_neg at hall
    obtain ⟨a0, ha0, hp0, hne0⟩ := hall
    have hoff_nil : ∀ x ∈ l, p x = false → g x = [] := by
      intro x hx hxf
      exact hexcl a0 ha0 x hx hp0 hxf hne0
    have h2 : (l.filter (fun x => !(p x))).flatMap g = [] :=
      flatMap_eq_nil_of (fun x hx => hoff_nil x (List.mem_filter.mp hx).1
        (by simpa using (List.mem_filter.mp hx).2))
    have h3 : l.flatMap g = (l.filter p).flatMap g := by
      apply flatMap_eq_filter_flatMap
      intro x hx hpx
      exact hoff_nil x hx hpx
    rw [h2, List.append_nil, h3]

/-- With no vacancies, the fast and the general raw builders agree on
every (bra, ket) sublist. -/
theorem fast_general_fiberEq (hops : List HopPC) (dim : Dim3) (pbc : Pbc3)
    (nOrb : ℕ) (horb : ∀ h ∈ hops, h.oi < nOrb ∧ h.oj < nOrb) :
    hopFiberEq
      (buildHopPbc (hops.filter (hopSafePbc pbc)) dim nOrb
        ++ buildHop (hops.filter (fun x => !(hopSafePbc pbc x))) dim pbc nOrb [])
      (buildHop hops dim pbc nOrb []) := by
  intro b k
  rw [← buildHop_safe_eq (hops.filter (hopSafePbc pbc)) dim pbc nOrb
    (fun x hx => (List.mem_filter.mp hx).2)]
  unfold buildHop
  rw [hopFiber_append, hopFiber_flatMap, hopFiber_flatMap, hopFiber_flatMap]
  apply fiber_partition_eq hops (hopSafePbc pbc)
    (fun h => hopFiber b k ((cellsOf dim).filterMap (emitHop dim pbc nOrb [] h)))
  intro x hx y hy hpx hpy hnex
  obtain ⟨t0, ht0mem⟩ := List.exists_mem_of_ne_nil _ hnex
  have ht0 := List.mem_filter.mp ht0mem
  obtain ⟨r0, hr0, hem0⟩ := List.mem_filterMap.mp ht0.1
  obtain ⟨hti, htj⟩ := hopSameKey_iff.mp ht0.2
  by_contra hne
  obtain ⟨t1, ht1mem⟩ := List.exists_mem_of_ne_nil _ hne
  have ht1 := List.mem_filter.mp ht1mem
  obtain ⟨r1, hr1, hem1⟩ := List.mem_filterMap.mp ht1.1
  obtain ⟨ht1i, ht1j⟩ := hopSameKey_iff.mp ht1.2
  exact emit_cross_exclusion hpx hpy (horb x hx) (horb y hy) hr0 hr1 hem0 hem1
    ⟨by rw [hti, ht1i], by rw [htj, ht1j]⟩

theorem firstIdx_key_none_iff (b k : ℕ) (l : List Hop) :
    firstIdx (hopSameKey b k) l = none ↔ hopFiber b k l = [] := by
  rw [firstIdx_eq_none_iff]
  unfold hopFiber
  rw [List.filter_eq_nil_iff]
  constructor
  · intro h a ha
    rw [h a ha]
    exact Bool.false_ne_true
  · intro h a ha
    cases hk : hopSameKey b k a
    · rfl
    · exact absurd hk (h a ha)

theorem hopSameKey_setV (b k : ℕ) (t : Hop) (v : Cplx) :
    hopSameKey b k ⟨t.i, t.j, v⟩ = hopSameKey b k t := rfl

/-- Overwriting the energy at the first (b, k) position rewrites the head
of the (b, k) sublist and leaves every other sublist unchanged. -/
theorem setHopV_firstIdx_fiber (b k b' k' : ℕ) (v : Cplx) :
    ∀ (l : List Hop) (i : ℕ), firstIdx (hopSameKey b k) l = some i →
      hopFiber b' k' (setHopV l i v)
        = if b' = b ∧ k' = k then setHeadHopV v (hopFiber b k l)
          else hopFiber b' k' l := by
  intro l
  induction l with
  | nil => intro i hfi; simp [firstIdx] at hfi
  | cons t ts ih =>
    intro i hfi
    by_cases hkey : hopSameKey b k t = true
    · have hi0 : i = 0 := by
        rw [firstIdx, if_pos hkey] at hfi
        cases hfi
        rfl
      subst hi0
      by_cases hbk : b' = b ∧ k' = k
      · rw [if_pos hbk, hbk.1, hbk.2]
        show hopFiber b k (⟨t.i, t.j, v⟩ :: ts) = setHeadHopV v (hopFiber b k (t :: ts))
        unfold hopFiber setHeadHopV
        rw [List.filter_cons, List.filter_cons,
          if_pos (by rw [hopSameKey_setV]; exact hkey), if_pos hkey]
      · rw [if_neg hbk]
        have hkey' : hopSameKey b' k' t = false := by
          cases hk : hopSameKey b' k' t
          · rfl
          · obtain ⟨h1, h2⟩ := hopSameKey_iff.mp hk
            obtain ⟨h3, h4⟩ := hopSameKey_iff.mp hkey
            exact absurd ⟨by omega, by omega⟩ hbk
        show hopFiber b' k' (⟨t.i, t.j, v⟩ :: ts) = hopFiber b' k' (t :: ts)
        unfold hopFiber
        rw [List.filter_cons, List.filter_cons,
          if_neg (by rw [hopSameKey_setV, hkey']; exact Bool.false_ne_true),
          if_neg (by rw [hkey']; exact Bool.false_ne_true)]
    · have hkeyf : hopSameKey b k t = false := by
        cases hk : hopSameKey b k t
        · rfl
        · exact absurd hk hkey
      have hstep : ∃ i0, firstIdx (hopSameKey b k) ts = some i0 ∧ i0 + 1 = i := by
        rw [firstIdx, if_neg hkey, Option.map_eq_some'] at hfi
        exact hfi
      obtain ⟨i0, hfi0, hi⟩ := hstep
      subst hi
      have ihres := ih i0 hfi0
      show hopFiber b' k' (t :: setHopV ts i0 v) = _
      by_cases hbk : b' = b ∧ k' = k
      · rw [if_pos hbk] at ihres
        rw [if_pos hbk, hbk.1, hbk.2]
        rw [hbk.1, hbk.2] at ihres
        show hopFiber b k (t :: setHopV ts i0 v) = setHeadHopV v (hopFiber b k (t :: ts))
        unfold hopFiber at ihres ⊢
        rw [List.filter_cons, List.filter_cons,
          if_neg (by rw [hkeyf]; exact Bool.false_ne_true),
          if_neg (by rw [hkeyf]; exact Bool.false_ne_true)]
        exact ihres
      · rw [if_neg hbk] at ihres
        rw [if_neg hbk]
        unfold hopFiber at ihres ⊢
        rw [List.filter_cons, List.filter_cons]
        by_cases hkt : hopSameKey b' k' t = true
        · rw [if_pos hkt, if_pos hkt, ihres]
        · rw [if_neg hkt, if_neg hkt]
          exact ihres

/-- One merge iteration maps fiber-equal raw lists (with equal pending
lists) to fiber-equal results with equal pending lists. -/
theorem mergeHopStep_preserves {l₁ l₂ : List Hop} (hf : hopFiberEq l₁ l₂)
    (p : List Hop) (m : ModEntry) :
    hopFiberEq (mergeHopStep (l₁, p) m).1 (mergeHopStep (l₂, p) m).1 ∧
    (mergeHopStep (l₁, p) m).2 = (mergeHopStep (l₂, p) m).2 := by
  have hsame_iff : firstIdx (hopSameKey m.bra m.ket) l₁ = none ↔
      firstIdx (hopSameKey m.bra m.ket) l₂ = none := by
    rw [firstIdx_key_none_iff, firstIdx_key_none_iff, hf m.bra m.ket]
  have hconj_iff : firstIdx (hopSameKey m.ket m.bra) l₁ = none ↔
      firstIdx (hopSameKey m.ket m.bra) l₂ = none := by
    rw [firstIdx_key_none_iff, firstIdx_key_none_iff, hf m.ket m.bra]
  unfold mergeHopStep findEquivHopping
  rcases h1 : firstIdx (hopSameKey m.bra m.ket) l₁ with _ | i1
  · have h2 : firstIdx (hopSameKey m.bra m.ket) l₂ = none := hsame_iff.mp h1
    rw [h2]
    rcases hc1 : firstIdx (hopSameKey m.ket m.bra) l₁ with _ | j1
    · have hc2 : firstIdx (hopSameKey m.ket m.bra) l₂ = none := hconj_iff.mp hc1
      rw [hc2]
      exact ⟨hf, rfl⟩
    · rcases hc2 : firstIdx (hopSameKey m.ket m.bra) l₂ with _ | j2
      · exact absurd (hconj_iff.mpr hc2) (by rw [hc1]; exact fun hh => Option.noConfusion hh)
      · refine ⟨?_, rfl⟩
        intro b' k'
        rw [setHopV_firstIdx_fiber m.ket m.bra b' k' _ l₁ j1 hc1,
          setHopV_firstIdx_fiber m.ket m.bra b' k' _ l₂ j2 hc2,
          hf m.ket m.bra, hf b' k']
  · rcases h2 : firstIdx (hopSameKey m.bra m.ket) l₂ with _ | i2
    · exact absurd (hsame_iff.mpr h2) (by rw [h1]; exact fun hh => Option.noConfusion hh)
    · refine ⟨?_, rfl⟩
      intro b' k'
      rw [setHopV_firstIdx_fiber m.bra m.ket b' k' _ l₁ i1 h1,
        setHopV_firstIdx_fiber m.bra m.ket b' k' _ l₂ i2 h2,
        hf m.bra m.ket, hf b' k']

/-- The whole merge loop preserves fiber equality. -/
theorem foldl_mergeHopStep_preserves (mods : List ModEntry) :
    ∀ (z₁ z₂ : List Hop × List Hop), hopFiberEq z₁.1 z₂.1 → z₁.2 = z₂.2 →
      hopFiberEq (mods.foldl mergeHopStep z₁).1 (mods.foldl mergeHopStep z₂).1 ∧
      (mods.foldl mergeHopStep z₁).2 = (mods.foldl mergeHopStep z₂).2 := by
  induction mods with
  | nil => intro z₁ z₂ hf hp; exact ⟨hf, hp⟩
  | cons m rest ih =>
    intro z₁ z₂ hf hp
    rw [List.foldl_cons, List.foldl_cons]
    obtain ⟨x₁, q₁⟩ := z₁
    obtain ⟨x₂, q₂⟩ := z₂
    simp only at hf hp
    subst hp
    exact ih (mergeHopStep (x₁, q₁) m) (mergeHopStep (x₂, q₁) m)
      (mergeHopStep_preserves hf q₁ m).1 (mergeHopStep_preserves hf q₁ m).2

/-- Fiber-equal lists are permutations of each other. -/
theorem hopFiberEq_perm {l₁ l₂ : List Hop} (h : hopFiberEq l₁ l₂) :
    List.Perm l₁ l₂ := by
  apply List.perm_iff_count.mpr
  intro a
  have hpa : hopSameKey a.i a.j a = true := hopSameKey_iff.mpr ⟨rfl, rfl⟩
  have h1 : List.count a (hopFiber a.i a.j l₁) = List.count a l₁ :=
    List.count_filter hpa
  have h2 : List.count a (hopFiber a.i a.j l₂) = List.count a l₂ :=
    List.count_filter hpa
  rw [← h1, ← h2, h a.i a.j]

/-- The modifier merge sends fiber-equal raw lists to permuted outputs. -/
theorem applyHopModifier_perm {l₁ l₂ : List Hop} (hf : hopFiberEq l₁ l₂)
    (mods : List ModEntry) :
    List.Perm (applyHopModifier l₁ mods) (applyHopModifier l₂ mods) := by
  unfold applyHopModifier
  have hres := foldl_mergeHopStep_preserves mods (l₁, []) (l₂, []) hf rfl
  apply hopFiberEq_perm
  intro b k
  rw [hopFiber_append, hopFiber_append, hres.1 b k, hres.2]

theorem syncArray_prim_cell (s : SuperCell) :
    (syncArray s).prim_cell = s.prim_cell := by
  by_cases h : s.vacancy_list = s.hash_dict <;> simp [syncArray, h]

theorem syncArray_pbc (s : SuperCell) : (syncArray s).pbc = s.pbc := by
  by_cases h : s.vacancy_list = s.hash_dict <;> simp [syncArray, h]

theorem syncArray_hop_modifier (s : SuperCell) :
    (syncArray s).hop_modifier = s.hop_modifier := by
  by_cases h : s.vacancy_list = s.hash_dict <;> simp [syncArray, h]

theorem conjDistinct_symm : ∀ {x y : Hop}, conjDistinct x y → conjDistinct y x := by
  intro x y hxy
  rintro ⟨e1, e2, e3⟩
  exact hxy ⟨e2.symm, e1.symm, by rw [e3, Cplx.conj_conj]⟩

theorem hopRnMin_le (i : ℕ) :
    ∀ (l : List HopPC), ∀ h ∈ l, hopRnMin i l ≤ hopRnAt i h := by
  intro l
  induction l with
  | nil => intro h hh; simp at hh
  | cons h0 rest ih =>
    intro h hh
    cases rest with
    | nil =>
      have : h = h0 := by simpa using hh
      subst this
      exact le_refl _
    | cons h1 t =>
      rcases List.mem_cons.mp hh with rfl | hmem
      · exact min_le_left _ _
      · exact le_trans (min_le_right _ _) (ih h hmem)

theorem hopRnMax_ge (i : ℕ) :
    ∀ (l : List HopPC), ∀ h ∈ l, hopRnAt i h ≤ hopRnMax i l := by
  intro l
  induction l with
  | nil => intro h hh; simp at hh
  | cons h0 rest ih =>
    intro h hh
    cases rest with
    | nil =>
      have : h = h0 := by simpa using hh
      subst this
      exact le_refl _
    | cons h1 t =>
      rcases List.mem_cons.mp hh with rfl | hmem
      · exact le_max_left _ _
      · exact le_trans (ih h hmem) (le_max_right _ _)

/-- Every offset component is bounded by the constructor minimum of its
axis. -/
theorem hopRn_natAbs_le (i : ℕ) (l : List HopPC) (h : HopPC) (hh : h ∈ l) :
    (hopRnAt i h).natAbs ≤ scDimMin i l := by
  unfold scDimMin
  have h1 := hopRnMin_le i l h hh
  have h2 := hopRnMax_ge i l h hh
  omega

/-- The per-axis core of the conjugate-duplicate argument: if two
wrapped destinations land back on each other's source cells and the two
offsets together stay below the axis dimension, the offsets are exactly
opposite. -/
theorem axis_opposite {d : ℕ} {p : Bool} {r r' : ℕ} {R R' : ℤ} {w w' : ℕ}
    (hsum : R.natAbs + R'.natAbs < d)
    (hw : wrapAxis d p ((r : ℤ) + R) = some w)
    (hw' : wrapAxis d p ((r' : ℤ) + R') = some w')
    (h1 : w' = r) (h2 : w = r') : R' = -R := by
  have hd : 0 < d := by omega
  have hm := wrapAxis_mod hd hw
  have hm' := wrapAxis_mod hd hw'
  rw [h1] at hm'
  rw [h2] at hm
  have m1 : ((r : ℤ)) ≡ (r' : ℤ) + R' [ZMOD (d : ℤ)] := hm'
  have m2 : ((r' : ℤ)) ≡ (r : ℤ) + R [ZMOD (d : ℤ)] := hm
  have m3 := m1.add m2
  have m5 : (0 : ℤ) ≡ R + R' [ZMOD (d : ℤ)] := by
    calc (0 : ℤ) = ((r : ℤ) + r') - ((r : ℤ) + r') := by ring
    _ ≡ (((r' : ℤ) + R') + ((r : ℤ) + R)) - ((r : ℤ) + r') [ZMOD (d : ℤ)] :=
      (m3.sub (Int.ModEq.refl ((r : ℤ) + r')))
    _ = R + R' := by ring
  have hdvd : (d : ℤ) ∣ (R + R') := Int.modEq_zero_iff_dvd.mp m5.symm
  have htri := Int.natAbs_add_le R R'
  obtain ⟨kk, hk⟩ := hdvd
  have habs : (R + R').natAbs < d := by omega
  have hzero : R + R' = 0 := by
    have he : (R + R').natAbs = d * kk.natAbs := by
      rw [hk, Int.natAbs_mul, Int.natAbs_ofNat]
    cases hkk : kk.natAbs with
    | zero =>
      have : kk = 0 := Int.natAbs_eq_zero.mp hkk
      rw [this, mul_zero] at hk
      exact hk
    | succ n =>
      have hge : d ≤ d * (n + 1) := Nat.le_mul_of_pos_right d (Nat.succ_pos n)
      rw [hkk] at he
      omega
  omega

/-- The general algorithm never emits a Hermitian-conjugate duplicate
pair, provided the pc hopping table is deduplicated, conjugate-reduced
and diagonal-free, and every pair of offsets fits inside each axis
dimension. -/
theorem buildHop_noConjDup (hops : List HopPC) (dim : Dim3) (pbc : Pbc3)
    (nOrb : ℕ) (vac : List ℕ)
    (hnd : hops.Nodup)
    (horb : ∀ h ∈ hops, h.oi < nOrb ∧ h.oj < nOrb)
    (hred : hops.Pairwise (fun h h2 => h2 ≠ h.conjugate))
    (hdiag : ∀ h ∈ hops, ¬(h.ra = 0 ∧ h.rb = 0 ∧ h.rc = 0 ∧ h.oi = h.oj))
    (hboundA : ∀ h ∈ hops, ∀ h2 ∈ hops, h.ra.natAbs + h2.ra.natAbs < dim.a)
    (hboundB : ∀ h ∈ hops, ∀ h2 ∈ hops, h.rb.natAbs + h2.rb.natAbs < dim.b)
    (hboundC : ∀ h ∈ hops, ∀ h2 ∈ hops, h.rc.natAbs + h2.rc.natAbs < dim.c) :
    NoConjDup (buildHop hops dim pbc nOrb vac) := by
  rw [buildHop_eq_product]
  unfold NoConjDup
  apply pairwise_filterMap_of (hnd.product (cellsOf_nodup dim))
  rintro ⟨h, r⟩ hz ⟨h2, r2⟩ hz2 hne t ht t2 ht2
  have hmem := List.mem_product.mp hz
  have hmem2 := List.mem_product.mp hz2
  rintro ⟨e1, e2, e3⟩
  obtain ⟨hra, hrb, hrc⟩ := mem_cellsOf.mp hmem.2
  obtain ⟨hra2, hrb2, hrc2⟩ := mem_cellsOf.mp hmem2.2
  have hda : 0 < dim.a := by omega
  have hdb : 0 < dim.b := by omega
  have hdc : 0 < dim.c := by omega
  obtain ⟨a2, b2, c2, hwa, hwb, hwc, hv1, hv2, hteq⟩ := emitHop_elim ht
  obtain ⟨a3, b3, c3, hwa2, hwb2, hwc2, hv3, hv4, hteq2⟩ := emitHop_elim ht2
  subst hteq
  subst hteq2
  simp only at e1 e2 e3
  have hvalid_bra : validPc dim nOrb ⟨r.1, r.2.1, r.2.2, h.oi⟩ :=
    ⟨hra, hrb, hrc, (horb h hmem.1).1⟩
  have hvalid_ket : validPc dim nOrb ⟨a2, b2, c2, h.oj⟩ :=
    ⟨wrapAxis_lt hda hwa, wrapAxis_lt hdb hwb, wrapAxis_lt hdc hwc,
     (horb h hmem.1).2⟩
  have hvalid_bra2 : validPc dim nOrb ⟨r2.1, r2.2.1, r2.2.2, h2.oi⟩ :=
    ⟨hra2, hrb2, hrc2, (horb h2 hmem2.1).1⟩
  have hvalid_ket2 : validPc dim nOrb ⟨a3, b3, c3, h2.oj⟩ :=
    ⟨wrapAxis_lt hda hwa2, wrapAxis_lt hdb hwb2, wrapAxis_lt hdc hwc2,
     (horb h2 hmem2.1).2⟩
  have hf1 := compact_inj vac (numOrbFull dim nOrb) hv1 hv4
    (idPcFlat_lt hvalid_bra) (idPcFlat_lt hvalid_ket2) e1
  have hf2 := compact_inj vac (numOrbFull dim nOrb) hv2 hv3
    (idPcFlat_lt hvalid_ket) (idPcFlat_lt hvalid_bra2) e2
  have hp1 := idPcFlat_inj hvalid_bra hvalid_ket2 hf1
  have hp2 := idPcFlat_inj hvalid_ket hvalid_bra2 hf2
  rw [PcId.mk.injEq] at hp1 hp2
  obtain ⟨hq1, hq2, hq3, hq4⟩ := hp1
  obtain ⟨hk1, hk2, hk3, hk4⟩ := hp2
  have hoppA : h2.ra = -h.ra :=
    axis_opposite (hboundA h hmem.1 h2 hmem2.1) hwa hwa2 hq1.symm hk1
  have hoppB : h2.rb = -h.rb :=
    axis_opposite (hboundB h hmem.1 h2 hmem2.1) hwb hwb2 hq2.symm hk2
  have hoppC : h2.rc = -h.rc :=
    axis_opposite (hboundC h hmem.1 h2 hmem2.1) hwc hwc2 hq3.symm hk3
  have hconjv : h2.v = h.v.conj := by
    rw [e3, Cplx.conj_conj]
  by_cases hhh : h = h2
  · subst hhh
    exact hdiag h hmem.1 ⟨by omega, by omega, by omega, by omega⟩
  · have hsymm : ∀ {x y : HopPC}, y ≠ x.conjugate → x ≠ y.conjugate := by
      intro x y hxy hcon
      exact hxy (by rw [hcon, HopPC.conjugate_conjugate])
    have hcon : h2 ≠ h.conjugate :=
      List.Pairwise.forall (fun {x y} hxy => hsymm hxy) hred hmem.1 hmem2.1 hhh
    apply hcon
    unfold HopPC.conjugate
    obtain ⟨ra2, rb2, rc2, oi2, oj2, v2⟩ := h2
    rw [HopPC.mk.injEq]
    simp only at hoppA hoppB hoppC hq4 hk4 hconjv
    exact ⟨hoppA, hoppB, hoppC, by omega, by omega, hconjv⟩

/-! ## Claim theorems -/

/-- C5: two successive calls to get_hop with the same state and the same
modifier set return equal (hop_i, hop_j, hop_v) arrays — the modifier is
merged into a freshly rebuilt raw array each time (overwrite semantics,
not accumulation). -/
theorem getHop_second_call_eq (s : SuperCell) (mode : UseFast) :
    (getHop (getHop s mode).2 mode).1 = (getHop s mode).1 := by
  show (getHop (syncArray s) mode).1 = (getHop s mode).1
  unfold getHop
  rw [syncArray_idem]

/-- C10: calling set_vacancies on a locked OrbitalSet raises the lock
error, but the stored vacancy list has already been reset to empty when
the error propagates, because the list is cleared before the lock check
inside add_vacancies runs. -/
theorem setVacancies_locked_clears (s : SuperCell) (batch : List PcId)
    (h : s.is_locked = true) :
    setVacancies s batch = (some .scLock, { s with vacancy_list := [] }) := by
  unfold setVacancies addVacancies
  simp only [h]
  rfl

theorem setVacancies_locked_clears_witness :
    setVacancies lockedSC [⟨0, 0, 0, 0⟩]
      = (some .scLock, { lockedSC with vacancy_list := [] }) :=
  setVacancies_locked_clears lockedSC [⟨0, 0, 0, 0⟩] rfl

/-- C8 (corrected: set_vacancies excluded): on a locked OrbitalSet or
SuperCell, add_vacancy, add_vacancies, add_hopping, set_orb_pos_modifier
and trim all fail with the lock error and leave the state unchanged. -/
theorem locked_mutators_reject (s : SuperCell) (v : PcId) (batch : List PcId)
    (rn : ℤ × ℤ × ℤ) (oi oj : ℕ) (e : Cplx)
    (f : Option (List (ℚ × ℚ × ℚ) → List (ℚ × ℚ × ℚ)))
    (h : s.is_locked = true) :
    addVacancy s v = (some .scLock, s) ∧
    addVacancies s batch = (some .scLock, s) ∧
    addHopping s rn oi oj e = (some .scLock, s) ∧
    setOrbPosModifier s f = (some .scLock, s) ∧
    trim s = (some .scLock, s) := by
  refine ⟨?_, ?_, ?_, ?_, ?_⟩
  · unfold addVacancy addVacancies; rw [if_pos h]
  · unfold addVacancies; rw [if_pos h]
  · unfold addHopping; rw [if_pos h]
  · unfold setOrbPosModifier; rw [if_pos h]
  · unfold trim; rw [if_pos h]

theorem locked_mutators_reject_witness :
    addVacancy lockedSC ⟨0, 0, 0, 0⟩ = (some .scLock, lockedSC) ∧
    addVacancies lockedSC [] = (some .scLock, lockedSC) ∧
    addHopping lockedSC (0, 0, 0) 0 1 ⟨1, 0⟩ = (some .scLock, lockedSC) ∧
    setOrbPosModifier lockedSC none = (some .scLock, lockedSC) ∧
    trim lockedSC = (some .scLock, lockedSC) :=
  locked_mutators_reject lockedSC ⟨0, 0, 0, 0⟩ [] (0, 0, 0) 0 1 ⟨1, 0⟩ none rfl

/-- C8 as stated is false: set_vacancies on a locked OrbitalSet raises the
lock error yet mutates the observable vacancy list (it is cleared). -/
theorem locked_setVacancies_mutates_counterexample :
    lockedSC.is_locked = true ∧
    (setVacancies lockedSC [⟨0, 0, 0, 0⟩]).1 = some .scLock ∧
    (setVacancies lockedSC [⟨0, 0, 0, 0⟩]).2.vacancy_list ≠ lockedSC.vacancy_list := by
  refine ⟨rfl, rfl, ?_⟩
  decide

/-- C7 (corrected: the range check precedes the diagonal check): on an
unlocked SuperCell, add_hopping raises SCOrbIndexError whenever orb_i or
orb_j is out of [0, num_orb_sc) (orb_i checked first), raises
SCHopDiagonalError whenever both indices are in range, rn == (0,0,0) and
orb_i == orb_j, and otherwise adds the term to the modifier. -/
theorem addHopping_validation (s : SuperCell) (rn : ℤ × ℤ × ℤ) (oi oj : ℕ)
    (e : Cplx) (hl : s.is_locked = false) :
    (s.num_orb_sc ≤ oi → addHopping s rn oi oj e = (some (.scOrbIndex oi), s)) ∧
    (oi < s.num_orb_sc → s.num_orb_sc ≤ oj →
      addHopping s rn oi oj e = (some (.scOrbIndex oj), s)) ∧
    (oi < s.num_orb_sc → oj < s.num_orb_sc → rn = (0, 0, 0) → oi = oj →
      addHopping s rn oi oj e = (some (.scHopDiagonal oi), s)) ∧
    (oi < s.num_orb_sc → oj < s.num_orb_sc → ¬(rn = (0, 0, 0) ∧ oi = oj) →
      addHopping s rn oi oj e =
        (none, { s with hop_modifier := intraHoppingAdd s.hop_modifier rn oi oj e })) := by
  have hnl : ¬(s.is_locked = true) := by rw [hl]; exact Bool.false_ne_true
  refine ⟨?_, ?_, ?_, ?_⟩
  · intro h1
    unfold addHopping
    rw [if_neg hnl, if_pos h1]
  · intro h1 h2
    unfold addHopping
    rw [if_neg hnl, if_neg (by omega), if_pos h2]
  · intro h1 h2 h3 h4
    unfold addHopping
    rw [if_neg hnl, if_neg (by omega), if_neg (by omega), if_pos ⟨h3, h4⟩]
  · intro h1 h2 h3
    unfold addHopping
    rw [if_neg hnl, if_neg (by omega), if_neg (by omega), if_neg h3]

theorem addHopping_validation_witness :
    sampleSC.is_locked = false ∧
    addHopping sampleSC (1, 0, 0) 0 1 ⟨1, 0⟩ =
      (none, { sampleSC with
        hop_modifier := intraHoppingAdd sampleSC.hop_modifier (1, 0, 0) 0 1 ⟨1, 0⟩ }) :=
  ⟨rfl, (addHopping_validation sampleSC (1, 0, 0) 0 1 ⟨1, 0⟩ rfl).2.2.2
    (by decide) (by decide) (by decide)⟩

/-- C7 as stated is false: with rn == (0,0,0) and orb_i == orb_j both out
of range, add_hopping raises SCOrbIndexError, not SCHopDiagonalError. -/
theorem addHopping_oob_diagonal_counterexample :
    sampleSC.is_locked = false ∧
    (addHopping sampleSC (0, 0, 0) 99 99 ⟨1, 0⟩).1 = some (.scOrbIndex 99) ∧
    (addHopping sampleSC (0, 0, 0) 99 99 ⟨1, 0⟩).1 ≠ some (.scHopDiagonal 99) := by
  refine ⟨rfl, ?_, ?_⟩ <;> decide

/-- C4: constructing an OrbitalSet/SuperCell whose dimension along the
first offending axis is strictly below the hopping-range minimum of that
axis fails with SCDimSizeError naming the axis; with every axis dimension
exactly equal to its minimum, construction succeeds.  A nonempty pc
hopping table is assumed, as the source computes the minima with numpy
min/max, which reject an empty table. -/
theorem makeSuperCell_min_dim (pc : PrimitiveCell) (dim : Dim3) (pbc : Pbc3)
    (vacs : Option (List PcId))
    (opm : Option (List (ℚ × ℚ × ℚ) → List (ℚ × ℚ × ℚ)))
    (_hne : pc.hop_ind ≠ []) :
    (∀ i, i < 3 → dimAt i dim < scDimMin i pc.hop_ind →
      (∀ j, j < i → scDimMin j pc.hop_ind ≤ dimAt j dim) →
      makeSuperCell pc dim pbc vacs opm
        = .error (.scDimSize i (scDimMin i pc.hop_ind))) ∧
    ((∀ i, i < 3 → dimAt i dim = scDimMin i pc.hop_ind) →
      exceptOk (makeSuperCell pc dim pbc none opm) = true) := by
  constructor
  · intro i hi hbad hfirst
    interval_cases i
    · unfold makeSuperCell
      rw [if_pos hbad]
    · have h0 : ¬(dimAt 0 dim < scDimMin 0 pc.hop_ind) := by
        have := hfirst 0 (by omega); omega
      unfold makeSuperCell
      rw [if_neg h0, if_pos hbad]
    · have h0 : ¬(dimAt 0 dim < scDimMin 0 pc.hop_ind) := by
        have := hfirst 0 (by omega); omega
      have h1 : ¬(dimAt 1 dim < scDimMin 1 pc.hop_ind) := by
        have := hfirst 1 (by omega); omega
      unfold makeSuperCell
      rw [if_neg h0, if_neg h1, if_pos hbad]
  · intro hall
    have h0 : ¬(dimAt 0 dim < scDimMin 0 pc.hop_ind) := by
      have := hall 0 (by omega); omega
    have h1 : ¬(dimAt 1 dim < scDimMin 1 pc.hop_ind) := by
      have := hall 1 (by omega); omega
    have h2 : ¬(dimAt 2 dim < scDimMin 2 pc.hop_ind) := by
      have := hall 2 (by omega); omega
    unfold makeSuperCell
    rw [if_neg h0, if_neg h1, if_neg h2]
    rfl

/-- C9 (corrected): every batch operation reports the first offending
element; orb_id_pc2sc_array and orb_id_sc2pc_array abort with no partial
result and no state commitment, while add_vacancies aborts without
synchronizing but keeps the valid elements scanned before the offender
appended to the vacancy list. -/
theorem batch_first_offender (s : SuperCell) (batch : List PcId)
    (ids : List ℕ) (ps : List PcId) (hl : s.is_locked = false) :
    (∀ k, k < batch.length → ∀ i,
      checkIdPcAxis s.dim s.num_orb_pc (batch.getD k ⟨0, 0, 0, 0⟩) = some i →
      (∀ j, j < k →
        checkIdPcAxis s.dim s.num_orb_pc (batch.getD j ⟨0, 0, 0, 0⟩) = none) →
      addVacancies s batch
        = (some (.vacIdPcIndex i (batch.getD k ⟨0, 0, 0, 0⟩)),
           { s with vacancy_list :=
             (addVacanciesAux s.dim s.num_orb_pc s.vacancy_list (batch.take k)).2 })) ∧
    (∀ k, k < ids.length →
      s.num_orb_sc ≤ ids.getD k 0 →
      (∀ j, j < k → ids.getD j 0 < s.num_orb_sc) →
      orbIdSc2PcArray s ids = .error (.idScIndex (ids.getD k 0))) ∧
    (∀ k, k < ps.length →
      (∀ j, j < k →
        checkIdPcAxis s.dim s.num_orb_pc (ps.getD j ⟨0, 0, 0, 0⟩) = none ∧
        isVacFlat (syncArray s).vac_id_sc
          (idPcFlat s.dim s.num_orb_pc (ps.getD j ⟨0, 0, 0, 0⟩)) = false) →
      (∀ i, checkIdPcAxis s.dim s.num_orb_pc (ps.getD k ⟨0, 0, 0, 0⟩) = some i →
        orbIdPc2ScArray s ps = .error (.idPcIndex i (ps.getD k ⟨0, 0, 0, 0⟩))) ∧
      (checkIdPcAxis s.dim s.num_orb_pc (ps.getD k ⟨0, 0, 0, 0⟩) = none →
        isVacFlat (syncArray s).vac_id_sc
          (idPcFlat s.dim s.num_orb_pc (ps.getD k ⟨0, 0, 0, 0⟩)) = true →
        orbIdPc2ScArray s ps = .error (.idPcVac (ps.getD k ⟨0, 0, 0, 0⟩)))) := by
  have hnl : ¬(s.is_locked = true) := by rw [hl]; exact Bool.false_ne_true
  refine ⟨?_, ?_, ?_⟩
  · intro k hk i hbad hfirst
    have haux := addVacanciesAux_first_bad s.dim s.num_orb_pc batch
      s.vacancy_list k hk i hbad hfirst
    unfold addVacancies
    rw [if_neg hnl, haux]
  · intro k hk hbad hfirst
    have hchk : checkIdScArray (syncArray s).num_orb_sc ids = some k := by
      rw [syncArray_num_orb_sc]
      apply firstIdx_eq_some_iff.mpr
      refine ⟨hk, ?_, ?_⟩
      · rw [List.get_eq_getElem, ← List.getD_eq_getElem _ 0 hk]
        simpa using hbad
      · intro j hj
        rw [List.get_eq_getElem, ← List.getD_eq_getElem _ 0 (by omega)]
        simpa using Nat.not_le.mpr (hfirst j hj)
    unfold orbIdSc2PcArray
    rw [hchk, List.getD_eq_getElem _ 0 hk, ← List.getD_eq_getElem _ 0 hk]
  · intro k hk hfirst
    have hchk := checkIdPcArray_first s.dim s.num_orb_pc (syncArray s).vac_id_sc
      ps k hk hfirst
    constructor
    · intro i hbad
      unfold orbIdPc2ScArray
      rw [syncArray_dim, syncArray_num_orb_pc, hchk.1 i hbad]
    · intro hok hvac
      unfold orbIdPc2ScArray
      rw [syncArray_dim, syncArray_num_orb_pc, hchk.2 hok hvac]

theorem batch_first_offender_witness :
    sampleSC.is_locked = false ∧
    orbIdSc2PcArray sampleSC [0, 99] = .error (.idScIndex 99) :=
  ⟨rfl, (batch_first_offender sampleSC [] [0, 99] [] rfl).2.1 1 (by decide)
    (by decide)
    (by intro j hj
        have hj0 : j = 0 := by omega
        subst hj0
        decide)⟩

/-- C9 as stated is false for add_vacancies: a batch with a valid first
element and an invalid second element raises the index error for the
second element, yet the first element has been committed to the vacancy
list. -/
theorem addVacancies_partial_commit_counterexample :
    sampleSC.is_locked = false ∧ sampleSC.vacancy_list = [] ∧
    (addVacancies sampleSC [⟨0, 0, 0, 0⟩, ⟨9, 9, 9, 9⟩]).1
      = some (.vacIdPcIndex 0 ⟨9, 9, 9, 9⟩) ∧
    (addVacancies sampleSC [⟨0, 0, 0, 0⟩, ⟨9, 9, 9, 9⟩]).2.vacancy_list
      = [⟨0, 0, 0, 0⟩] := by
  refine ⟨rfl, rfl, ?_, ?_⟩ <;> decide

theorem makeSuperCell_min_dim_witness :
    pcChain2.hop_ind ≠ [] ∧
    makeSuperCell pcChain2 ⟨0, 5, 5⟩ ⟨true, false, false⟩ none none
      = .error (.scDimSize 0 (scDimMin 0 pcChain2.hop_ind)) ∧
    exceptOk (makeSuperCell pcChain2 ⟨1, 0, 0⟩ ⟨true, false, false⟩ none none) = true :=
  ⟨by decide,
   (makeSuperCell_min_dim pcChain2 ⟨0, 5, 5⟩ ⟨true, false, false⟩ none none
      (by decide)).1 0 (by omega) (by decide) (by intro j hj; omega),
   (makeSuperCell_min_dim pcChain2 ⟨1, 0, 0⟩ ⟨true, false, false⟩ none none
      (by decide)).2 (by decide)⟩

/-- C3: after synchronization, len(orb_id_pc) + len(vacancy_list) equals
num_orb_pc times the supercell volume (the vacancy list being
deduplicated by construction), and orb_id_pc2sc is a left inverse of
orb_id_sc2pc on every live supercell index. -/
theorem compaction_consistency (s : SuperCell) (hwf : scWF s) :
    (syncArray s).orb_id_pc.length + s.vacancy_list.length
      = s.num_orb_pc * (s.dim.a * s.dim.b * s.dim.c) ∧
    ∀ i, i < s.num_orb_sc →
      (orbIdSc2Pc s i).bind (fun p => orbIdPc2Sc s p) = .ok i := by
  obtain ⟨hnd, hvalid, h3, h4⟩ := hwf
  have harr := syncArray_arrays s h3 h4
  have hcount : countVacBelow (buildVacIdSc s.dim s.num_orb_pc s.vacancy_list)
      (numOrbFull s.dim s.num_orb_pc) = s.vacancy_list.length := by
    unfold countVacBelow isVacFlat
    rw [countP_mem_range_of_nodup]
    · exact (List.length_map _ _).symm ▸ (List.length_map s.vacancy_list _)
    · exact hnd.map_on (fun x hx y hy hexy =>
        idPcFlat_inj (hvalid x hx) (hvalid y hy) hexy)
    · intro x hx
      obtain ⟨v, hv, rfl⟩ := List.mem_map.mp hx
      exact idPcFlat_lt (hvalid v hv)
  have hTe : numOrbFull s.dim s.num_orb_pc
      = s.num_orb_pc * (s.dim.a * s.dim.b * s.dim.c) := by
    unfold numOrbFull; ring
  have hlive_len : (liveFlat (buildVacIdSc s.dim s.num_orb_pc s.vacancy_list)
      (numOrbFull s.dim s.num_orb_pc)).length
      = numOrbFull s.dim s.num_orb_pc - s.vacancy_list.length := by
    rw [liveFlat_length, hcount]
  have hcvb_le := countVacBelow_le
    (buildVacIdSc s.dim s.num_orb_pc s.vacancy_list) (numOrbFull s.dim s.num_orb_pc)
  constructor
  · rw [harr.2]
    unfold buildOrbIdPc
    rw [List.length_map, hlive_len]
    omega
  · intro i hi
    have hi2 : i < (liveFlat (buildVacIdSc s.dim s.num_orb_pc s.vacancy_list)
        (numOrbFull s.dim s.num_orb_pc)).length := by
      unfold SuperCell.num_orb_sc at hi
      omega
    have hfi_mem : (liveFlat (buildVacIdSc s.dim s.num_orb_pc s.vacancy_list)
        (numOrbFull s.dim s.num_orb_pc)).getD i 0
        ∈ liveFlat (buildVacIdSc s.dim s.num_orb_pc s.vacancy_list)
          (numOrbFull s.dim s.num_orb_pc) := by
      rw [List.getD_eq_getElem _ _ hi2]
      exact List.getElem_mem hi2
    obtain ⟨hfiT, hfiVac⟩ := liveFlat_mem hfi_mem
    have hcompact := liveFlat_getD_compact
      (buildVacIdSc s.dim s.num_orb_pc s.vacancy_list)
      (numOrbFull s.dim s.num_orb_pc) i hi2
    have hget : (syncArray s).orb_id_pc.get? i
        = some (idScFlatInv s.dim s.num_orb_pc
            ((liveFlat (buildVacIdSc s.dim s.num_orb_pc s.vacancy_list)
              (numOrbFull s.dim s.num_orb_pc)).getD i 0)) := by
      rw [harr.2]
      unfold buildOrbIdPc
      rw [List.get?_eq_getElem?, List.getElem?_map, List.getElem?_eq_getElem hi2]
      rw [List.getD_eq_getElem _ _ hi2]
      rfl
    unfold orbIdSc2Pc
    rw [hget]
    show orbIdPc2Sc s _ = .ok i
    have hvalid2 : validPc s.dim s.num_orb_pc (idScFlatInv s.dim s.num_orb_pc
        ((liveFlat (buildVacIdSc s.dim s.num_orb_pc s.vacancy_list)
          (numOrbFull s.dim s.num_orb_pc)).getD i 0)) :=
      validPc_idScFlatInv hfiT
    unfold orbIdPc2Sc
    rw [syncArray_dim, syncArray_num_orb_pc,
      checkIdPcAxis_eq_none.mpr hvalid2]
    unfold idPc2Sc
    rw [harr.1]
    simp only [idPcFlat_idScFlatInv, hfiVac, Bool.false_eq_true, if_false]
    rw [hcompact]

/-- C6: one iteration of the modifier merge of get_hop / get_dr — an
exact (bra, ket) match in the raw arrays has its energy slot (and its
displacement) overwritten at the first matching position, otherwise a
conjugate (ket, bra) match is overwritten with the conjugated energy (and
the negated displacement), and otherwise the entry is collected as a
brand-new term appended after the loop. -/
theorem modifier_merge_semantics (l pend : List Hop) (m : ModEntry)
    (hops : List Hop)
    (orbPos : List (ℚ × ℚ × ℚ))
    (scLat : (ℚ × ℚ × ℚ) × (ℚ × ℚ × ℚ) × (ℚ × ℚ × ℚ))
    (dr pendDr : List (ℚ × ℚ × ℚ)) :
    (∀ i, i < l.length →
      hopSameKey m.bra m.ket (l.getD i ⟨0, 0, ⟨0, 0⟩⟩) = true →
      (∀ j, j < i → hopSameKey m.bra m.ket (l.getD j ⟨0, 0, ⟨0, 0⟩⟩) = false) →
      mergeHopStep (l, pend) m = (setHopV l i m.energy, pend)) ∧
    ((∀ t ∈ l, hopSameKey m.bra m.ket t = false) →
      ∀ i, i < l.length →
      hopSameKey m.ket m.bra (l.getD i ⟨0, 0, ⟨0, 0⟩⟩) = true →
      (∀ j, j < i → hopSameKey m.ket m.bra (l.getD j ⟨0, 0, ⟨0, 0⟩⟩) = false) →
      mergeHopStep (l, pend) m = (setHopV l i m.energy.conj, pend)) ∧
    ((∀ t ∈ l, hopSameKey m.bra m.ket t = false ∧ hopSameKey m.ket m.bra t = false) →
      mergeHopStep (l, pend) m = (l, pend ++ [⟨m.bra, m.ket, m.energy⟩])) ∧
    (∀ i, i < hops.length →
      hopSameKey m.bra m.ket (hops.getD i ⟨0, 0, ⟨0, 0⟩⟩) = true →
      (∀ j, j < i → hopSameKey m.bra m.ket (hops.getD j ⟨0, 0, ⟨0, 0⟩⟩) = false) →
      mergeDrStep hops orbPos scLat (dr, pendDr) m
        = (setV3At dr i (v3Sub
            (v3Add (orbPos.getD m.ket (0, 0, 0))
              (fracToCart scLat (m.ra : ℚ) (m.rb : ℚ) (m.rc : ℚ)))
            (orbPos.getD m.bra (0, 0, 0))), pendDr)) ∧
    ((∀ t ∈ hops, hopSameKey m.bra m.ket t = false) →
      ∀ i, i < hops.length →
      hopSameKey m.ket m.bra (hops.getD i ⟨0, 0, ⟨0, 0⟩⟩) = true →
      (∀ j, j < i → hopSameKey m.ket m.bra (hops.getD j ⟨0, 0, ⟨0, 0⟩⟩) = false) →
      mergeDrStep hops orbPos scLat (dr, pendDr) m
        = (setV3At dr i (v3Neg (v3Sub
            (v3Add (orbPos.getD m.ket (0, 0, 0))
              (fracToCart scLat (m.ra : ℚ) (m.rb : ℚ) (m.rc : ℚ)))
            (orbPos.getD m.bra (0, 0, 0)))), pendDr)) ∧
    ((∀ t ∈ hops, hopSameKey m.bra m.ket t = false ∧ hopSameKey m.ket m.bra t = false) →
      mergeDrStep hops orbPos scLat (dr, pendDr) m
        = (dr, pendDr ++ [v3Sub
            (v3Add (orbPos.getD m.ket (0, 0, 0))
              (fracToCart scLat (m.ra : ℚ) (m.rb : ℚ) (m.rc : ℚ)))
            (orbPos.getD m.bra (0, 0, 0))])) := by
  refine ⟨?_, ?_, ?_, ?_, ?_, ?_⟩
  · intro i hi hp hfirst
    have h1 := firstIdx_eq_some_of_getD (hopSameKey m.bra m.ket) l
      ⟨0, 0, ⟨0, 0⟩⟩ i hi hp hfirst
    unfold mergeHopStep findEquivHopping
    rw [h1]
  · intro hnone i hi hp hfirst
    have h0 := firstIdx_eq_none_iff.mpr hnone
    have h1 := firstIdx_eq_some_of_getD (hopSameKey m.ket m.bra) l
      ⟨0, 0, ⟨0, 0⟩⟩ i hi hp hfirst
    unfold mergeHopStep findEquivHopping
    rw [h0, h1]
  · intro hnone
    have h0 := firstIdx_eq_none_iff.mpr (fun t ht => (hnone t ht).1)
    have h1 := firstIdx_eq_none_iff.mpr (fun t ht => (hnone t ht).2)
    unfold mergeHopStep findEquivHopping
    rw [h0, h1]
  · intro i hi hp hfirst
    have h1 := firstIdx_eq_some_of_getD (hopSameKey m.bra m.ket) hops
      ⟨0, 0, ⟨0, 0⟩⟩ i hi hp hfirst
    unfold mergeDrStep findEquivHopping
    rw [h1]
  · intro hnone i hi hp hfirst
    have h0 := firstIdx_eq_none_iff.mpr hnone
    have h1 := firstIdx_eq_some_of_getD (hopSameKey m.ket m.bra) hops
      ⟨0, 0, ⟨0, 0⟩⟩ i hi hp hfirst
    unfold mergeDrStep findEquivHopping
    rw [h0, h1]
  · intro hnone
    have h0 := firstIdx_eq_none_iff.mpr (fun t ht => (hnone t ht).1)
    have h1 := firstIdx_eq_none_iff.mpr (fun t ht => (hnone t ht).2)
    unfold mergeDrStep findEquivHopping
    rw [h0, h1]

theorem modifier_merge_semantics_witness :
    mergeHopStep ([⟨0, 1, ⟨5, 0⟩⟩], []) ⟨0, 0, 0, 0, 1, ⟨2, 3⟩⟩
      = (setHopV [⟨0, 1, ⟨5, 0⟩⟩] 0 (⟨2, 3⟩ : Cplx), []) ∧
    mergeDrStep [⟨0, 1, ⟨5, 0⟩⟩] [(0, 0, 0), (1, 0, 0)]
        ((1, 0, 0), (0, 1, 0), (0, 0, 1)) ([(1, 0, 0)], []) ⟨0, 0, 0, 1, 0, ⟨2, 3⟩⟩
      = (setV3At [(1, 0, 0)] 0 (v3Neg (v3Sub
          (v3Add ([(0, 0, 0), (1, 0, 0)].getD 0 (0, 0, 0))
            (fracToCart ((1, 0, 0), (0, 1, 0), (0, 0, 1)) ((0 : ℤ) : ℚ)
              ((0 : ℤ) : ℚ) ((0 : ℤ) : ℚ)))
          ([(0, 0, 0), (1, 0, 0)].getD 1 (0, 0, 0)))), []) :=
  ⟨(modifier_merge_semantics [⟨0, 1, ⟨5, 0⟩⟩] [] ⟨0, 0, 0, 0, 1, ⟨2, 3⟩⟩
      [] [] ((0, 0, 0), (0, 0, 0), (0, 0, 0)) [] []).1 0 (by decide) (by decide)
      (by intro j hj; omega),
   (modifier_merge_semantics [] [] ⟨0, 0, 0, 1, 0, ⟨2, 3⟩⟩
      [⟨0, 1, ⟨5, 0⟩⟩] [(0, 0, 0), (1, 0, 0)] ((1, 0, 0), (0, 1, 0), (0, 0, 1))
      [(1, 0, 0)] []).2.2.2.2.1 (by decide) 0 (by decide) (by decide)
      (by intro j hj; omega)⟩

/-- C2: for a SuperCell without vacancies, get_hop with the fast
algorithm and with the general algorithm return the same (hop_i, hop_j,
hop_v) triples up to order (a permutation, hence equal as unordered
sets). -/
theorem fast_general_equivalence (s : SuperCell) (hwf : scWF s)
    (hvac : s.vacancy_list = [])
    (horb : ∀ h ∈ s.prim_cell.hop_ind, h.oi < s.num_orb_pc ∧ h.oj < s.num_orb_pc) :
    List.Perm (getHop s .fast).1 (getHop s .general).1 := by
  obtain ⟨hnd, hv, h3, h4⟩ := hwf
  have harr := syncArray_arrays s h3 h4
  have hvacsc : (syncArray s).vac_id_sc = [] := by
    rw [harr.1, hvac]
    rfl
  have e1 : (getHop s .fast).1
      = (if (syncArray s).hop_modifier.isEmpty then initHopFast (syncArray s)
         else applyHopModifier (initHopFast (syncArray s))
           (syncArray s).hop_modifier) := rfl
  have e2 : (getHop s .general).1
      = (if (syncArray s).hop_modifier.isEmpty then initHop (syncArray s)
         else applyHopModifier (initHop (syncArray s))
           (syncArray s).hop_modifier) := rfl
  rw [e1, e2]
  have hfib : hopFiberEq (initHopFast (syncArray s)) (initHop (syncArray s)) := by
    unfold initHopFast initHop splitPcHop
    rw [hvacsc, syncArray_prim_cell, syncArray_pbc, syncArray_dim,
      syncArray_num_orb_pc]
    exact fast_general_fiberEq s.prim_cell.hop_ind s.dim s.pbc s.num_orb_pc horb
  by_cases hm : (syncArray s).hop_modifier.isEmpty
  · rw [if_pos hm, if_pos hm]
    exact hopFiberEq_perm hfib
  · rw [if_neg hm, if_neg hm]
    exact applyHopModifier_perm hfib _

theorem fast_general_equivalence_witness :
    scWF sampleSC ∧ sampleSC.vacancy_list = [] ∧
    List.Perm (getHop sampleSC .fast).1 (getHop sampleSC .general).1 :=
  ⟨by decide, rfl,
   fast_general_equivalence sampleSC (by decide) rfl (by decide)⟩

theorem compaction_consistency_witness :
    scWF vacSC ∧
    ((syncArray vacSC).orb_id_pc.length + vacSC.vacancy_list.length
      = vacSC.num_orb_pc * (vacSC.dim.a * vacSC.dim.b * vacSC.dim.c)) ∧
    ∀ i, i < vacSC.num_orb_sc →
      (orbIdSc2Pc vacSC i).bind (fun p => orbIdPc2Sc vacSC p) = .ok i :=
  ⟨by decide, (compaction_consistency vacSC (by decide)).1,
   (compaction_consistency vacSC (by decide)).2⟩

/-- C1: the conjugate-symmetry invariant of get_hop — no two stored terms
of the output form a Hermitian-conjugate duplicate pair — holds for a
synchronized, well-formed SuperCell whose pc hopping table is
deduplicated, conjugate-reduced and diagonal-free, whose modifier is
empty, and whose every axis dimension strictly exceeds twice the
constructor minimum of that axis (i.e. exceeds the 2N window noted in the
source's own NOTES).  The extra dimension hypothesis and the empty
modifier are necessary: see the counterexample. -/
theorem getHop_conjugate_reduction (s : SuperCell)
    (hwf : scWF s)
    (hnd : s.prim_cell.hop_ind.Nodup)
    (horb : ∀ h ∈ s.prim_cell.hop_ind,
      h.oi < s.num_orb_pc ∧ h.oj < s.num_orb_pc)
    (hred : s.prim_cell.hop_ind.Pairwise (fun h h2 => h2 ≠ h.conjugate))
    (hdiag : ∀ h ∈ s.prim_cell.hop_ind,
      ¬(h.ra = 0 ∧ h.rb = 0 ∧ h.rc = 0 ∧ h.oi = h.oj))
    (hdimA : 2 * scDimMin 0 s.prim_cell.hop_ind < dimAt 0 s.dim)
    (hdimB : 2 * scDimMin 1 s.prim_cell.hop_ind < dimAt 1 s.dim)
    (hdimC : 2 * scDimMin 2 s.prim_cell.hop_ind < dimAt 2 s.dim)
    (hmod : s.hop_modifier = []) :
    NoConjDup ((getHop s .auto).1) := by
  have hbA : ∀ h ∈ s.prim_cell.hop_ind, ∀ h2 ∈ s.prim_cell.hop_ind,
      h.ra.natAbs + h2.ra.natAbs < s.dim.a := by
    intro h hh h2 hh2
    have k1 := hopRn_natAbs_le 0 s.prim_cell.hop_ind h hh
    have k2 := hopRn_natAbs_le 0 s.prim_cell.hop_ind h2 hh2
    simp [hopRnAt] at k1 k2
    simp [dimAt] at hdimA
    omega
  have hbB : ∀ h ∈ s.prim_cell.hop_ind, ∀ h2 ∈ s.prim_cell.hop_ind,
      h.rb.natAbs + h2.rb.natAbs < s.dim.b := by
    intro h hh h2 hh2
    have k1 := hopRn_natAbs_le 1 s.prim_cell.hop_ind h hh
    have k2 := hopRn_natAbs_le 1 s.prim_cell.hop_ind h2 hh2
    simp [hopRnAt] at k1 k2
    simp [dimAt] at hdimB
    omega
  have hbC : ∀ h ∈ s.prim_cell.hop_ind, ∀ h2 ∈ s.prim_cell.hop_ind,
      h.rc.natAbs + h2.rc.natAbs < s.dim.c := by
    intro h hh h2 hh2
    have k1 := hopRn_natAbs_le 2 s.prim_cell.hop_ind h hh
    have k2 := hopRn_natAbs_le 2 s.prim_cell.hop_ind h2 hh2
    simp [hopRnAt] at k1 k2
    simp [dimAt] at hdimC
    omega
  have hgen : NoConjDup (initHop (syncArray s)) := by
    unfold initHop
    rw [syncArray_prim_cell, syncArray_pbc, syncArray_dim, syncArray_num_orb_pc]
    exact buildHop_noConjDup _ _ _ _ _ hnd horb hred hdiag hbA hbB hbC
  obtain ⟨hnodup, hvalid, h3, h4⟩ := hwf
  have hmod' : (syncArray s).hop_modifier.isEmpty = true := by
    rw [syncArray_hop_modifier, hmod]; rfl
  have e1 : (getHop s .auto).1
      = (if (syncArray s).hop_modifier.isEmpty
         then (if resolveUseFast (syncArray s) .auto
               then initHopFast (syncArray s) else initHop (syncArray s))
         else applyHopModifier
           (if resolveUseFast (syncArray s) .auto
            then initHopFast (syncArray s) else initHop (syncArray s))
           (syncArray s).hop_modifier) := rfl
  rw [e1, if_pos hmod']
  have hres : resolveUseFast (syncArray s) .auto = s.vacancy_list.isEmpty := by
    unfold resolveUseFast
    rw [syncArray_vacancy_list]
  rw [hres]
  by_cases hvac : s.vacancy_list = []
  · have harr := (syncArray_arrays s h3 h4).1
    rw [hvac] at harr
    have hvz : (syncArray s).vac_id_sc = [] := harr
    rw [hvac]
    show NoConjDup (initHopFast (syncArray s))
    have hperm : List.Perm (initHopFast (syncArray s)) (initHop (syncArray s)) := by
      apply hopFiberEq_perm
      unfold initHopFast initHop splitPcHop
      rw [hvz, syncArray_prim_cell, syncArray_pbc, syncArray_dim,
        syncArray_num_orb_pc]
      exact fast_general_fiberEq s.prim_cell.hop_ind s.dim s.pbc s.num_orb_pc horb
    exact (List.Perm.pairwise_iff (fun h => conjDistinct_symm h) hperm).mpr hgen
  · have hne : ¬(s.vacancy_list.isEmpty = true) := by
      cases hl : s.vacancy_list with
      | nil => exact absurd hl hvac
      | cons a l => simp
    rw [if_neg hne]
    exact hgen

theorem getHop_conjugate_reduction_witness :
    NoConjDup ((getHop sampleSC .auto).1) :=
  getHop_conjugate_reduction sampleSC (by decide) (by decide) (by decide)
    (by decide) (by decide) (by decide) (by decide) (by decide) rfl

/-- C1 counterexample: the claim quantifies over every SuperCell, but the
constructor only enforces each axis dimension ≥ max(|rn_min|, |rn_max|) =
N, while the source's own NOTES require 2N+1 for correctness.  smallSC — a
periodic 2-cell chain over pcChain1, accepted by the constructor — yields
an output whose two terms are a Hermitian-conjugate duplicate pair.
Moreover ample dimensions do not suffice once the modifier is nonempty:
modSC (built from sampleSC through add_hopping only, with every axis
dimension exceeding twice the constructor minimum) also returns a
conjugate-duplicate pair, because find_equiv_hopping searches only the
raw arrays, not the terms appended by earlier modifier entries. -/
theorem getHop_conjugate_dup_counterexample :
    makeSuperCell pcChain1 ⟨2, 1, 1⟩ ⟨true, false, false⟩ none none
      = .ok smallSC ∧
    smallSC.hop_modifier = [] ∧
    ¬NoConjDup ((getHop smallSC .auto).1) ∧
    (2 * scDimMin 0 sampleSC.prim_cell.hop_ind < dimAt 0 sampleSC.dim ∧
     2 * scDimMin 1 sampleSC.prim_cell.hop_ind < dimAt 1 sampleSC.dim ∧
     2 * scDimMin 2 sampleSC.prim_cell.hop_ind < dimAt 2 sampleSC.dim) ∧
    ¬NoConjDup ((getHop modSC .auto).1) :=
  ⟨rfl, rfl, by decide, by decide, by decide⟩

end TBPlaS
